import Mathlib

/-!
# circuitx: Modified Nodal Analysis assembly and backward-Euler integration

A shallow embedding of `circuitx/src/netlist.cpp`, `circuitx/src/components.cpp` and
`circuitx/src/simulator.cpp`.

Modelling conventions.

* `double` is modelled by `ℚ` (exact arithmetic), `int` by `Int` (no wrap-around is modelled:
  the quantities involved are node numbers and unknown counts).
* `Eigen::MatrixXd` / `Eigen::VectorXd` of dimension `n` are `Matrix (Fin n) (Fin n) ℚ` and
  `Fin n → ℚ`.  A coefficient access `M(i, j)` or `v(i)` with an `int` index outside
  `0 .. n-1`, and a `std::vector::operator[]` outside the vector, is undefined behaviour in
  the source; the embedding reports it as `Fault.out_of_range`.
* A `std::vector` constructed or reserved with a negative `int` count (which converts to a
  huge `size_t`) throws `std::length_error`; the embedding reports it as
  `Fault.length_error`.
* `M.householderQr().solve(rhs)` is library code (Eigen); it is a parameter `solve` of the
  integrator.
* Console output (`std::println`) is not modelled.
-/

namespace Circuitx

/-! ## Data model (`components.hpp`, `netlist.hpp`, `simulator.hpp`) -/

/-- The scoped enum `CompType` of `components.hpp`. -/
inductive CompType where
  | Resistor
  | Capacitor
  | VoltageSource
  | Inductor
  | Unknown
  deriving DecidableEq, Repr

/-- The struct `Component` of `components.hpp`; `nodes` is the `std::array<int, 2>`. -/
structure Component where
  type : CompType
  nodes : Int × Int
  value : ℚ
  name : String

/-- The struct `NetList` of `netlist.hpp`. -/
structure NetList where
  components : List Component
  node_to_idx : List Int
  max_nodes : Int
  volt_unknows : Int
  extra_unknows : Int
  total_unknows : Int

/-- The struct `SimConf` of `netlist.hpp`. -/
structure SimConf where
  dt : ℚ
  steps : Int
  plot : Bool

/-- Abnormal terminations of the source that the embedding makes explicit. -/
inductive Fault where
  | length_error
  | out_of_range
  | bad_dimension
  deriving DecidableEq, Repr

/-- The struct `MNA` of `simulator.hpp`, for matrices of dimension `n`. -/
structure MNA (n : Nat) where
  G : Matrix (Fin n) (Fin n) ℚ
  C : Matrix (Fin n) (Fin n) ℚ
  b : Fin n → ℚ

/-! ## Unknown indexer (`netlist.cpp`, `setNodeToIndex`) -/

/-- One iteration of `for (int n = 1; n <= max_nodes; ++n) node_to_idx[n] = idx++;`
on the pair (table, `idx`). -/
def nodeLoopStep (s : List Int × Int) (n : Nat) : List Int × Int :=
  (s.1.set n s.2, s.2 + 1)

/-- The whole loop `for (int n = 1; n <= max_nodes; ++n)`, started from the table `tbl`
and `idx = 0`. -/
def nodeLoop (tbl : List Int) (max_nodes : Int) : List Int × Int :=
  (List.range' 1 max_nodes.toNat).foldl nodeLoopStep (tbl, 0)

/-- The test `comp.type == VoltageSource || comp.type == Inductor`. -/
def needsExtra (comp : Component) : Bool :=
  comp.type == CompType.VoltageSource || comp.type == CompType.Inductor

/-- The loop `for (auto &comp : components) if (...) extra_unknows += 1;`. -/
def countExtra (components : List Component) : Int :=
  components.foldl (fun acc comp => if needsExtra comp then acc + 1 else acc) 0

/-- The function `setNodeToIndex` of `netlist.cpp`. -/
def setNodeToIndex (netlist : NetList) : Except Fault NetList :=
  if netlist.max_nodes + 1 < 0 then
    Except.error Fault.length_error
  else
    let tbl0 : List Int := List.replicate (netlist.max_nodes + 1).toNat (-1)
    let r := nodeLoop tbl0 netlist.max_nodes
    let volt_unknows := r.2
    let extra_unknows := countExtra netlist.components
    let total_unknows := volt_unknows + extra_unknows
    Except.ok { netlist with
      node_to_idx := r.1
      volt_unknows := volt_unknows
      extra_unknows := extra_unknows
      total_unknows := total_unknows }

/-- The lambda `index_of` of `stamp_component`: `netlis.node_to_idx[node]`. -/
def index_of (netlis : NetList) (node : Int) : Except Fault Int :=
  if 0 ≤ node then
    match netlis.node_to_idx[node.toNat]? with
    | some i => Except.ok i
    | none => Except.error Fault.out_of_range
  else
    Except.error Fault.out_of_range

/-! ## Stamper (`components.cpp`) -/

/-- The static function `inv` of `components.cpp`: `1.0 / v`. -/
def inv (v : ℚ) : ℚ := 1 / v

/-- An `int` index used on an object of dimension `n`: a position when it lies in
`0 .. n-1`, otherwise the access is out of range. -/
def toIdx (n : Nat) (i : Int) : Except Fault (Fin n) :=
  if h : 0 ≤ i ∧ i < (n : Int) then
    Except.ok ⟨i.toNat, by omega⟩
  else
    Except.error Fault.out_of_range

/-- The statement `M(i, j) += v;` on a square matrix of dimension `n`. -/
def coeffAdd {n : Nat} (M : Matrix (Fin n) (Fin n) ℚ) (i j : Int) (v : ℚ) :
    Except Fault (Matrix (Fin n) (Fin n) ℚ) := do
  let r ← toIdx n i
  let c ← toIdx n j
  pure (fun a b => if a = r ∧ b = c then M a b + v else M a b)

/-- The statement `M(i, j) -= v;` on a square matrix of dimension `n`. -/
def coeffSub {n : Nat} (M : Matrix (Fin n) (Fin n) ℚ) (i j : Int) (v : ℚ) :
    Except Fault (Matrix (Fin n) (Fin n) ℚ) := do
  let r ← toIdx n i
  let c ← toIdx n j
  pure (fun a b => if a = r ∧ b = c then M a b - v else M a b)

/-- The statement `b(i) += v;` on a vector of dimension `n`. -/
def vecAdd {n : Nat} (x : Fin n → ℚ) (i : Int) (v : ℚ) : Except Fault (Fin n → ℚ) := do
  let r ← toIdx n i
  pure (fun a => if a = r then x a + v else x a)

/-- What one call of `stamp_component` leaves behind: the system, the cursor
`nextExtraIndex` (passed by reference in the source), and the value of the local `extra`
in the two cases that declare it. -/
structure Stamped (n : Nat) where
  mna : MNA n
  nextExtraIndex : Int
  extra : Option Int

/-- The function `stamp_component` of `components.cpp`. -/
def stamp_component {n : Nat} (component : Component) (mna : MNA n) (netlis : NetList)
    (nextExtraIndex : Int) : Except Fault (Stamped n) :=
  match component.type with
  | CompType.Resistor => do
    let n1 ← index_of netlis component.nodes.1
    let n2 ← index_of netlis component.nodes.2
    let g := inv component.value
    let G := mna.G
    let G ← if n1 ≥ 0 then coeffAdd G n1 n1 g else pure G
    let G ← if n2 ≥ 0 then coeffAdd G n2 n2 g else pure G
    let G ← if n1 ≥ 0 ∧ n2 ≥ 0 then (do
        let G ← coeffSub G n1 n2 g
        coeffSub G n2 n1 g)
      else pure G
    pure ⟨{ mna with G := G }, nextExtraIndex, none⟩
  | CompType.Capacitor => do
    let n1 ← index_of netlis component.nodes.1
    let n2 ← index_of netlis component.nodes.2
    let cap := component.value
    let C := mna.C
    let C ← if n1 ≥ 0 then coeffAdd C n1 n1 cap else pure C
    let C ← if n2 ≥ 0 then coeffAdd C n2 n2 cap else pure C
    let C ← if n1 ≥ 0 ∧ n2 ≥ 0 then (do
        let C ← coeffSub C n1 n2 cap
        coeffSub C n2 n1 cap)
      else pure C
    pure ⟨{ mna with C := C }, nextExtraIndex, none⟩
  | CompType.Inductor => do
    let extra := nextExtraIndex
    let nextExtraIndex := nextExtraIndex + 1
    let npos ← index_of netlis component.nodes.1
    let nneg ← index_of netlis component.nodes.2
    let G := mna.G
    let G ← if npos ≥ 0 then (do
        let G ← coeffAdd G npos extra 1
        coeffAdd G extra npos 1)
      else pure G
    let G ← if nneg ≥ 0 then (do
        let G ← coeffSub G nneg extra 1
        coeffSub G extra nneg 1)
      else pure G
    let C ← coeffAdd mna.C extra extra component.value
    pure ⟨{ mna with G := G, C := C }, nextExtraIndex, some extra⟩
  | CompType.VoltageSource => do
    let extra := nextExtraIndex
    let nextExtraIndex := nextExtraIndex + 1
    let npos ← index_of netlis component.nodes.1
    let nneg ← index_of netlis component.nodes.2
    let G := mna.G
    let G ← if npos ≥ 0 then (do
        let G ← coeffAdd G npos extra 1
        coeffAdd G extra npos 1)
      else pure G
    let G ← if nneg ≥ 0 then (do
        let G ← coeffSub G nneg extra 1
        coeffSub G extra nneg 1)
      else pure G
    let b ← vecAdd mna.b extra component.value
    pure ⟨{ mna with G := G, b := b }, nextExtraIndex, some extra⟩
  | CompType.Unknown => pure ⟨mna, nextExtraIndex, none⟩

/-- What `stamp_all` leaves behind: the system, the final value of the local cursor
`nextExtra`, and, per component in order, the `extra` index it claimed (if any). -/
structure StampedAll (n : Nat) where
  mna : MNA n
  nextExtra : Int
  claimed : List (Option Int)

/-- The loop `for (const auto &component : netlist.components)` of `stamp_all`. -/
def stampLoop {n : Nat} (netlist : NetList) :
    List Component → MNA n → Int → Except Fault (StampedAll n)
  | [], mna, nextExtra => pure ⟨mna, nextExtra, []⟩
  | component :: rest, mna, nextExtra => do
    let s ← stamp_component component mna netlist nextExtra
    let r ← stampLoop netlist rest s.mna s.nextExtraIndex
    pure ⟨r.mna, r.nextExtra, s.extra :: r.claimed⟩

/-- The function `stamp_all` of `components.cpp`. -/
def stamp_all {n : Nat} (netlist : NetList) (mna : MNA n) (extraStartIndex : Int) :
    Except Fault (StampedAll n) :=
  stampLoop netlist netlist.components mna extraStartIndex

/-! ## System assembler and transient integrator (`simulator.cpp`) -/

/-- The function `defineMNA` of `simulator.cpp`.  `Eigen::MatrixXd::Zero` with a negative
dimension has no defined result; it is reported as `Fault.bad_dimension`. -/
def defineMNA (netlist : NetList) : Except Fault (MNA netlist.total_unknows.toNat) :=
  if netlist.total_unknows < 0 then
    Except.error Fault.bad_dimension
  else do
    let mna : MNA netlist.total_unknows.toNat := ⟨0, 0, 0⟩
    let extraStartIndex := netlist.volt_unknows
    let r ← stamp_all netlist mna extraStartIndex
    pure r.mna

/-- The Eigen expression `A / s` (every coefficient divided by the scalar). -/
def divScalar {n : Nat} (A : Matrix (Fin n) (Fin n) ℚ) (s : ℚ) : Matrix (Fin n) (Fin n) ℚ :=
  fun i j => A i j / s

/-- The type of the library routine `M.householderQr().solve(rhs)`. -/
def Solver : Type := (n : Nat) → Matrix (Fin n) (Fin n) ℚ → (Fin n → ℚ) → (Fin n → ℚ)

/-- The loop `for (int k = 0; k < simconf.steps; k++)` of `simulate_backward_euler`, with
`iters` iterations left, current state `x` and the `history` so far. -/
def eulerLoop (solve : Solver) {n : Nat} (M : Matrix (Fin n) (Fin n) ℚ) (mna : MNA n)
    (dt : ℚ) : Nat → (Fin n → ℚ) → List (Fin n → ℚ) → List (Fin n → ℚ)
  | 0, _, history => history
  | iters + 1, x, history =>
    let rhs := mna.b + (divScalar mna.C dt).mulVec x
    let x_next := solve n M rhs
    eulerLoop solve M mna dt iters x_next (history ++ [x_next])

/-- The reads `history[i][netlist.node_to_idx[n]]`, `n = 1 .. volt_unknows`, of the final
printing loop are all inside the table and inside a state vector of dimension `dim`. -/
def printReadsOk (netlist : NetList) (dim : Nat) : Bool :=
  (List.range' 1 netlist.volt_unknows.toNat).all fun n =>
    match netlist.node_to_idx[n]? with
    | some i => decide (0 ≤ i ∧ i < (dim : Int))
    | none => false

/-- The function `simulate_backward_euler` of `simulator.cpp`.  The system `mna` has the
dimension `netlist.total_unknows` of the initial state `x0` (Eigen's sum and product are
defined only then); `Eigen::VectorXd::Zero` with a negative dimension is reported as
`Fault.bad_dimension`, `history.reserve` with a negative count as `Fault.length_error`. -/
def simulate_backward_euler (solve : Solver) (netlist : NetList)
    (mna : MNA netlist.total_unknows.toNat) (simconf : SimConf) :
    Except Fault (List (Fin netlist.total_unknows.toNat → ℚ)) :=
  if netlist.total_unknows < 0 then
    Except.error Fault.bad_dimension
  else if simconf.steps + 1 < 0 then
    Except.error Fault.length_error
  else
    let x0 : Fin netlist.total_unknows.toNat → ℚ := 0
    let M := mna.G + divScalar mna.C simconf.dt
    let history := eulerLoop solve M mna simconf.dt simconf.steps.toNat x0 [x0]
    if printReadsOk netlist netlist.total_unknows.toNat then
      Except.ok history
    else
      Except.error Fault.out_of_range

/-- An exact direct solver (Cramer's rule), one possible value of the parameter `solve`. -/
def cramerSolve : Solver :=
  fun _ M rhs i => (M.det)⁻¹ * (Matrix.updateColumn M i rhs).det

/-- A circuit model as the loader leaves it before `setNodeToIndex`: the components and the
highest terminal; the table and the counts are not yet computed. -/
def circuitOf (max_nodes : Int) (components : List Component) : NetList :=
  { components := components
    node_to_idx := []
    max_nodes := max_nodes
    volt_unknows := 0
    extra_unknows := 0
    total_unknows := 0 }

/-- The source of the series circuit: 5 V between terminal 1 and ground. -/
def sampleSource : Component := ⟨CompType.VoltageSource, (1, 0), 5, "V1"⟩

/-- The resistor of the series circuit: 1000 Ω between terminals 1 and 2. -/
def sampleResistor : Component := ⟨CompType.Resistor, (1, 2), 1000, "R1"⟩

/-- The capacitor of the series circuit: 1 µF between terminal 2 and ground. -/
def sampleCapacitor : Component := ⟨CompType.Capacitor, (2, 0), 1 / 1000000, "C1"⟩

/-- The series circuit of the spec's worked example, as the loader leaves it before
`setNodeToIndex`. -/
def seriesCircuit : NetList :=
  { components := [sampleSource, sampleResistor, sampleCapacitor]
    node_to_idx := []
    max_nodes := 2
    volt_unknows := 0
    extra_unknows := 0
    total_unknows := 0 }

/-- The series circuit after `setNodeToIndex`. -/
def seriesNetlist : NetList :=
  { components := seriesCircuit.components
    node_to_idx := [-1, 0, 1]
    max_nodes := 2
    volt_unknows := 2
    extra_unknows := 1
    total_unknows := 3 }

/-- A 10 mH inductor between terminals 1 and 2. -/
def sampleInductor : Component := ⟨CompType.Inductor, (1, 2), 1 / 100, "L1"⟩

/-- The zero-filled system of dimension `n` that `defineMNA` starts from. -/
def zeroMNA (n : Nat) : MNA n := ⟨0, 0, 0⟩

/-- The system assembled from the series circuit: `G`, `C` and `b` of dimension 3. -/
def seriesMNA : MNA 3 :=
  { G := !![1 / 1000, -(1 / 1000), 1; -(1 / 1000), 1 / 1000, 0; 1, 0, 0]
    C := !![0, 0, 0; 0, 1 / 1000000, 0; 0, 0, 0]
    b := ![0, 0, 5] }

/-- A configuration with the time step of the worked example: `dt` = 1 ms, two steps. -/
def sampleConf : SimConf := ⟨1 / 1000, 2, false⟩

/-- A single resistor of value `R` between the non-ground terminals 1 and 2, as loaded. -/
def resistorCircuit (R : ℚ) (name : String) : NetList :=
  circuitOf 2 [⟨CompType.Resistor, (1, 2), R, name⟩]

/-- The single-resistor circuit after `setNodeToIndex`. -/
def resistorNetlist (R : ℚ) (name : String) : NetList :=
  { components := [⟨CompType.Resistor, (1, 2), R, name⟩]
    node_to_idx := [-1, 0, 1]
    max_nodes := 2
    volt_unknows := 2
    extra_unknows := 0
    total_unknows := 2 }

/-- A single 1000 Ω resistor between terminal 1 and ground, as loaded. -/
def groundedCircuit : NetList :=
  circuitOf 1 [⟨CompType.Resistor, (1, 0), 1000, "R1"⟩]

/-- The grounded-resistor circuit after `setNodeToIndex`. -/
def groundedNetlist : NetList :=
  { components := [⟨CompType.Resistor, (1, 0), 1000, "R1"⟩]
    node_to_idx := [-1, 0]
    max_nodes := 1
    volt_unknows := 1
    extra_unknows := 0
    total_unknows := 1 }

/-- A degenerate circuit: a single 5 V source with both terminals at ground, as loaded. -/
def floatingCircuit : NetList :=
  circuitOf 0 [⟨CompType.VoltageSource, (0, 0), 5, "V1"⟩]

/-- The degenerate circuit after `setNodeToIndex`: no node unknown, one extra unknown. -/
def floatingNetlist : NetList :=
  { components := [⟨CompType.VoltageSource, (0, 0), 5, "V1"⟩]
    node_to_idx := [-1]
    max_nodes := 0
    volt_unknows := 0
    extra_unknows := 1
    total_unknows := 1 }

/-- The system assembled from the degenerate circuit: `G = [[0]]`, `C = [[0]]`, `b = [5]`. -/
def floatingMNA : MNA 1 := ⟨0, 0, ![5]⟩

/-- A resistor of negative value between terminals 1 and 2. -/
def negativeResistor : Component := ⟨CompType.Resistor, (1, 2), -1000, "R1"⟩

/-- A component whose type tag the loader did not recognise. -/
def unknownComponent : Component := ⟨CompType.Unknown, (1, 2), 1, "X1"⟩

/-- A trajectory written out as lists of coefficients. -/
def render {n : Nat} (history : List (Fin n → ℚ)) : List (List ℚ) :=
  history.map List.ofFn

/-! ## Vocabulary of the statements -/

/-- The matrix of dimension `n` whose only non-zero coefficient is `v` at row `i`, column
`j` (the zero matrix when `i` or `j` is not a position of the matrix). -/
def entryAt (n : Nat) (i j : Int) (v : ℚ) : Matrix (Fin n) (Fin n) ℚ :=
  fun a b => if ((a : Nat) : Int) = i ∧ ((b : Nat) : Int) = j then v else 0

/-- The vector of dimension `n` whose only non-zero coefficient is `v` at position `i`. -/
def vecEntryAt (n : Nat) (i : Int) (v : ℚ) : Fin n → ℚ :=
  fun a => if ((a : Nat) : Int) = i then v else 0

/-- Both terminals of every component are terminals `0 .. max_nodes`. -/
def TerminalsInRange (netlist : NetList) : Prop :=
  ∀ c ∈ netlist.components,
    0 ≤ c.nodes.1 ∧ c.nodes.1 ≤ netlist.max_nodes ∧ 0 ≤ c.nodes.2 ∧ c.nodes.2 ≤ netlist.max_nodes

/-- The contract of a direct dense solve in exact arithmetic: on an invertible matrix `M` the
returned vector solves `M * x = rhs`. -/
def SolvesExactly (solve : Solver) : Prop :=
  ∀ (n : Nat) (M : Matrix (Fin n) (Fin n) ℚ) (rhs : Fin n → ℚ),
    IsUnit M.det → M.mulVec (solve n M rhs) = rhs

/-- Coefficient `(i, j)` of a square matrix read with natural-number indices (0 outside the
matrix), so that matrices of propositionally equal dimensions can be compared. -/
def coeffAt {n : Nat} (A : Matrix (Fin n) (Fin n) ℚ) (i j : Nat) : ℚ :=
  if h : i < n ∧ j < n then A ⟨i, h.1⟩ ⟨j, h.2⟩ else 0

/-- What one component adds to `G` when its terminals `t` map to `t - 1` and the cursor is
`e`: the closed form of the `G` statements of `stamp_component`. -/
def stampG (n : Nat) (c : Component) (e : Int) : Matrix (Fin n) (Fin n) ℚ :=
  match c.type with
  | CompType.Resistor =>
    (if 0 ≤ c.nodes.1 - 1 then entryAt n (c.nodes.1 - 1) (c.nodes.1 - 1) (inv c.value) else 0)
    + (if 0 ≤ c.nodes.2 - 1 then entryAt n (c.nodes.2 - 1) (c.nodes.2 - 1) (inv c.value) else 0)
    - (if 0 ≤ c.nodes.1 - 1 ∧ 0 ≤ c.nodes.2 - 1 then
        entryAt n (c.nodes.1 - 1) (c.nodes.2 - 1) (inv c.value)
          + entryAt n (c.nodes.2 - 1) (c.nodes.1 - 1) (inv c.value)
      else 0)
  | CompType.Capacitor => 0
  | CompType.VoltageSource =>
    (if 0 ≤ c.nodes.1 - 1 then entryAt n (c.nodes.1 - 1) e 1 + entryAt n e (c.nodes.1 - 1) 1
      else 0)
    - (if 0 ≤ c.nodes.2 - 1 then entryAt n (c.nodes.2 - 1) e 1 + entryAt n e (c.nodes.2 - 1) 1
      else 0)
  | CompType.Inductor =>
    (if 0 ≤ c.nodes.1 - 1 then entryAt n (c.nodes.1 - 1) e 1 + entryAt n e (c.nodes.1 - 1) 1
      else 0)
    - (if 0 ≤ c.nodes.2 - 1 then entryAt n (c.nodes.2 - 1) e 1 + entryAt n e (c.nodes.2 - 1) 1
      else 0)
  | CompType.Unknown => 0

/-- What one component adds to `C` (closed form of the `C` statements of
`stamp_component`). -/
def stampC (n : Nat) (c : Component) (e : Int) : Matrix (Fin n) (Fin n) ℚ :=
  match c.type with
  | CompType.Capacitor =>
    (if 0 ≤ c.nodes.1 - 1 then entryAt n (c.nodes.1 - 1) (c.nodes.1 - 1) c.value else 0)
    + (if 0 ≤ c.nodes.2 - 1 then entryAt n (c.nodes.2 - 1) (c.nodes.2 - 1) c.value else 0)
    - (if 0 ≤ c.nodes.1 - 1 ∧ 0 ≤ c.nodes.2 - 1 then
        entryAt n (c.nodes.1 - 1) (c.nodes.2 - 1) c.value
          + entryAt n (c.nodes.2 - 1) (c.nodes.1 - 1) c.value
      else 0)
  | CompType.Inductor => entryAt n e e c.value
  | _ => 0

/-- What one component adds to `b` (closed form of the `b` statement of
`stamp_component`). -/
def stampB (n : Nat) (c : Component) (e : Int) : Fin n → ℚ :=
  match c.type with
  | CompType.VoltageSource => vecEntryAt n e c.value
  | _ => 0

/-- The cursor after a component stamped with the cursor at `e`. -/
def cursorAfter (c : Component) (e : Int) : Int :=
  e + (if needsExtra c then 1 else 0)

/-- Sum of the `G` contributions of a component list, the cursor starting at `e`. -/
def sumG (n : Nat) : List Component → Int → Matrix (Fin n) (Fin n) ℚ
  | [], _ => 0
  | c :: cs, e => stampG n c e + sumG n cs (cursorAfter c e)

/-- Sum of the `C` contributions of a component list, the cursor starting at `e`. -/
def sumC (n : Nat) : List Component → Int → Matrix (Fin n) (Fin n) ℚ
  | [], _ => 0
  | c :: cs, e => stampC n c e + sumC n cs (cursorAfter c e)

/-- Sum of the `b` contributions of a component list, the cursor starting at `e`. -/
def sumB (n : Nat) : List Component → Int → (Fin n → ℚ)
  | [], _ => 0
  | c :: cs, e => stampB n c e + sumB n cs (cursorAfter c e)

/-! # Theorems -/

/-! ## Lemmas on the indexer -/

theorem nodeLoop_foldl (k : Nat) : ∀ (start : Nat) (tbl : List Int) (idx : Int),
    ((List.range' start k).foldl nodeLoopStep (tbl, idx)).2 = idx + k ∧
    ((List.range' start k).foldl nodeLoopStep (tbl, idx)).1.length = tbl.length ∧
    ∀ p : Nat, ((List.range' start k).foldl nodeLoopStep (tbl, idx)).1[p]? =
      if start ≤ p ∧ p < start + k ∧ p < tbl.length then some (idx + ((p - start : Nat) : Int))
      else tbl[p]? := by
  induction k with
  | zero =>
    intro start tbl idx
    refine ⟨by simp, by simp, ?_⟩
    intro p
    have : ¬ (start ≤ p ∧ p < start + 0 ∧ p < tbl.length) := by omega
    rw [if_neg this]; simp
  | succ k ih =>
    intro start tbl idx
    have h := ih (start + 1) (tbl.set start idx) (idx + 1)
    simp only [List.range', List.foldl_cons, nodeLoopStep] at h ⊢
    obtain ⟨h1, h2, h3⟩ := h
    refine ⟨?_, ?_, ?_⟩
    · rw [h1]; push_cast; ring
    · rw [h2]; simp
    · intro p
      rw [h3 p]
      simp only [List.length_set]
      by_cases hp : start + 1 ≤ p ∧ p < start + 1 + k ∧ p < tbl.length
      · have hp2 : start ≤ p ∧ p < start + (k + 1) ∧ p < tbl.length := by omega
        rw [if_pos hp, if_pos hp2]
        congr 1
        have : ((p - start : Nat) : Int) = ((p - (start + 1) : Nat) : Int) + 1 := by omega
        rw [this]; ring
      · rw [if_neg hp]
        by_cases hs : p = start
        · subst hs
          by_cases hl : p < tbl.length
          · have hp2 : p ≤ p ∧ p < p + (k + 1) ∧ p < tbl.length := by omega
            rw [if_pos hp2]
            simp [List.getElem?_set, hl]
          · have hp2 : ¬ (p ≤ p ∧ p < p + (k + 1) ∧ p < tbl.length) := by omega
            rw [if_neg hp2]
            have hn : tbl[p]? = none := List.getElem?_eq_none (by omega)
            simp [List.getElem?_set, hl, hn]
        · have hp2 : ¬ (start ≤ p ∧ p < start + (k + 1) ∧ p < tbl.length) := by omega
          rw [if_neg hp2]
          rw [List.getElem?_set_ne (Ne.symm hs)]

theorem countExtra_foldl (l : List Component) : ∀ acc : Int,
    l.foldl (fun acc comp => if needsExtra comp then acc + 1 else acc) acc
      = acc + (l.countP needsExtra : Nat) := by
  induction l with
  | nil => intro acc; simp
  | cons c cs ih =>
    intro acc
    rw [List.foldl_cons, ih]
    by_cases hc : needsExtra c
    · simp [hc, List.countP_cons_of_pos]; ring
    · simp [hc]

theorem countExtra_eq (l : List Component) : countExtra l = (l.countP needsExtra : Nat) := by
  simp [countExtra, countExtra_foldl]

theorem setNodeToIndex_ok (netlist : NetList) (h : 0 ≤ netlist.max_nodes) :
    setNodeToIndex netlist = Except.ok { netlist with
      node_to_idx := (nodeLoop (List.replicate (netlist.max_nodes + 1).toNat (-1))
        netlist.max_nodes).1
      volt_unknows := netlist.max_nodes
      extra_unknows := (netlist.components.countP needsExtra : Nat)
      total_unknows := netlist.max_nodes + (netlist.components.countP needsExtra : Nat) } := by
  have hlt : ¬ netlist.max_nodes + 1 < 0 := by omega
  have h2 := (nodeLoop_foldl netlist.max_nodes.toNat 1
    (List.replicate (netlist.max_nodes + 1).toNat (-1)) 0).1
  have hv : (nodeLoop (List.replicate (netlist.max_nodes + 1).toNat (-1))
      netlist.max_nodes).2 = netlist.max_nodes := by
    rw [nodeLoop, h2]; omega
  simp only [setNodeToIndex, if_neg hlt, hv, countExtra_eq]

theorem nodeLoop_table (m : Int) (h : 0 ≤ m) (p : Nat) :
    (nodeLoop (List.replicate (m + 1).toNat (-1)) m).1[p]? =
      if p = 0 then some (-1) else if (p : Int) ≤ m then some ((p : Int) - 1) else none := by
  have h3 := (nodeLoop_foldl m.toNat 1 (List.replicate (m + 1).toNat (-1)) 0).2.2 p
  rw [nodeLoop, h3]
  simp only [List.length_replicate]
  by_cases hp0 : p = 0
  · subst hp0
    have hlen : 0 < (m + 1).toNat := by omega
    simp [List.getElem?_replicate, hlen]
  · rw [if_neg hp0]
    by_cases hpm : (p : Int) ≤ m
    · have hc : 1 ≤ p ∧ p < 1 + m.toNat ∧ p < (m + 1).toNat := by omega
      rw [if_pos hc, if_pos hpm]
      congr 1
      omega
    · have hc : ¬ (1 ≤ p ∧ p < 1 + m.toNat ∧ p < (m + 1).toNat) := by omega
      rw [if_neg hc, if_neg hpm]
      exact List.getElem?_eq_none (by simp; omega)

/-! ## Lemmas on coefficient updates -/

theorem toIdx_ok {n : Nat} {i : Int} (h0 : 0 ≤ i) (h1 : i < (n : Int)) :
    toIdx n i = Except.ok ⟨i.toNat, by omega⟩ := by
  have h : 0 ≤ i ∧ i < (n : Int) := ⟨h0, h1⟩
  simp only [toIdx, dif_pos h]

theorem fin_eq_toNat {n : Nat} (a : Fin n) {i : Int} (h0 : 0 ≤ i) (h : i.toNat < n) :
    a = (⟨i.toNat, h⟩ : Fin n) ↔ ((a : Nat) : Int) = i := by
  rw [Fin.ext_iff]
  simp only
  omega

theorem coeffAdd_ok {n : Nat} (M : Matrix (Fin n) (Fin n) ℚ) {i j : Int} (v : ℚ)
    (hi0 : 0 ≤ i) (hi1 : i < (n : Int)) (hj0 : 0 ≤ j) (hj1 : j < (n : Int)) :
    coeffAdd M i j v = Except.ok (M + entryAt n i j v) := by
  simp only [coeffAdd, toIdx_ok hi0 hi1, toIdx_ok hj0 hj1, bind, Except.bind, pure, Except.pure]
  congr 1
  funext a b
  simp only [Matrix.add_apply, entryAt, fin_eq_toNat a hi0, fin_eq_toNat b hj0]
  split_ifs <;> simp

theorem coeffSub_ok {n : Nat} (M : Matrix (Fin n) (Fin n) ℚ) {i j : Int} (v : ℚ)
    (hi0 : 0 ≤ i) (hi1 : i < (n : Int)) (hj0 : 0 ≤ j) (hj1 : j < (n : Int)) :
    coeffSub M i j v = Except.ok (M - entryAt n i j v) := by
  simp only [coeffSub, toIdx_ok hi0 hi1, toIdx_ok hj0 hj1, bind, Except.bind, pure, Except.pure]
  congr 1
  funext a b
  simp only [Matrix.sub_apply, entryAt, fin_eq_toNat a hi0, fin_eq_toNat b hj0]
  split_ifs <;> simp

theorem vecAdd_ok {n : Nat} (x : Fin n → ℚ) {i : Int} (v : ℚ)
    (hi0 : 0 ≤ i) (hi1 : i < (n : Int)) :
    vecAdd x i v = Except.ok (x + vecEntryAt n i v) := by
  simp only [vecAdd, toIdx_ok hi0 hi1, bind, Except.bind, pure, Except.pure]
  congr 1
  funext a
  simp only [Pi.add_apply, vecEntryAt, fin_eq_toNat a hi0]
  split_ifs <;> simp

/-! ## Lemmas on `stamp_component` -/

theorem stamp_resistor {n : Nat} (component : Component) (mna : MNA n) (netlis : NetList)
    (nextExtraIndex n1 n2 : Int)
    (ht : component.type = CompType.Resistor)
    (h1 : index_of netlis component.nodes.1 = Except.ok n1)
    (h2 : index_of netlis component.nodes.2 = Except.ok n2)
    (hb1 : n1 < (n : Int)) (hb2 : n2 < (n : Int)) :
    stamp_component component mna netlis nextExtraIndex = Except.ok
      ⟨{ G := mna.G
              + (if 0 ≤ n1 then entryAt n n1 n1 (inv component.value) else 0)
              + (if 0 ≤ n2 then entryAt n n2 n2 (inv component.value) else 0)
              - (if 0 ≤ n1 ∧ 0 ≤ n2 then
                  entryAt n n1 n2 (inv component.value) + entryAt n n2 n1 (inv component.value)
                else 0)
         C := mna.C
         b := mna.b }, nextExtraIndex, none⟩ := by
  simp only [stamp_component, ht, h1, h2, bind, Except.bind, pure, Except.pure, ge_iff_le]
  by_cases hn1 : 0 ≤ n1 <;> by_cases hn2 : 0 ≤ n2 <;>
    simp [hn1, hn2, coeffAdd_ok, coeffSub_ok, hb1, hb2, sub_sub]

theorem stamp_capacitor {n : Nat} (component : Component) (mna : MNA n) (netlis : NetList)
    (nextExtraIndex n1 n2 : Int)
    (ht : component.type = CompType.Capacitor)
    (h1 : index_of netlis component.nodes.1 = Except.ok n1)
    (h2 : index_of netlis component.nodes.2 = Except.ok n2)
    (hb1 : n1 < (n : Int)) (hb2 : n2 < (n : Int)) :
    stamp_component component mna netlis nextExtraIndex = Except.ok
      ⟨{ G := mna.G
         C := mna.C
              + (if 0 ≤ n1 then entryAt n n1 n1 component.value else 0)
              + (if 0 ≤ n2 then entryAt n n2 n2 component.value else 0)
              - (if 0 ≤ n1 ∧ 0 ≤ n2 then
                  entryAt n n1 n2 component.value + entryAt n n2 n1 component.value
                else 0)
         b := mna.b }, nextExtraIndex, none⟩ := by
  simp only [stamp_component, ht, h1, h2, bind, Except.bind, pure, Except.pure, ge_iff_le]
  by_cases hn1 : 0 ≤ n1 <;> by_cases hn2 : 0 ≤ n2 <;>
    simp [hn1, hn2, coeffAdd_ok, coeffSub_ok, hb1, hb2, sub_sub]

theorem stamp_inductor {n : Nat} (component : Component) (mna : MNA n) (netlis : NetList)
    (nextExtraIndex n1 n2 : Int)
    (ht : component.type = CompType.Inductor)
    (h1 : index_of netlis component.nodes.1 = Except.ok n1)
    (h2 : index_of netlis component.nodes.2 = Except.ok n2)
    (hb1 : n1 < (n : Int)) (hb2 : n2 < (n : Int))
    (he0 : 0 ≤ nextExtraIndex) (he1 : nextExtraIndex < (n : Int)) :
    stamp_component component mna netlis nextExtraIndex = Except.ok
      ⟨{ G := mna.G
              + (if 0 ≤ n1 then
                  entryAt n n1 nextExtraIndex 1 + entryAt n nextExtraIndex n1 1 else 0)
              - (if 0 ≤ n2 then
                  entryAt n n2 nextExtraIndex 1 + entryAt n nextExtraIndex n2 1 else 0)
         C := mna.C + entryAt n nextExtraIndex nextExtraIndex component.value
         b := mna.b }, nextExtraIndex + 1, some nextExtraIndex⟩ := by
  simp only [stamp_component, ht, h1, h2, bind, Except.bind, pure, Except.pure, ge_iff_le]
  by_cases hn1 : 0 ≤ n1 <;> by_cases hn2 : 0 ≤ n2 <;>
    simp [hn1, hn2, coeffAdd_ok, coeffSub_ok, hb1, hb2, he0, he1, sub_sub, add_assoc]

theorem stamp_source {n : Nat} (component : Component) (mna : MNA n) (netlis : NetList)
    (nextExtraIndex n1 n2 : Int)
    (ht : component.type = CompType.VoltageSource)
    (h1 : index_of netlis component.nodes.1 = Except.ok n1)
    (h2 : index_of netlis component.nodes.2 = Except.ok n2)
    (hb1 : n1 < (n : Int)) (hb2 : n2 < (n : Int))
    (he0 : 0 ≤ nextExtraIndex) (he1 : nextExtraIndex < (n : Int)) :
    stamp_component component mna netlis nextExtraIndex = Except.ok
      ⟨{ G := mna.G
              + (if 0 ≤ n1 then
                  entryAt n n1 nextExtraIndex 1 + entryAt n nextExtraIndex n1 1 else 0)
              - (if 0 ≤ n2 then
                  entryAt n n2 nextExtraIndex 1 + entryAt n nextExtraIndex n2 1 else 0)
         C := mna.C
         b := mna.b + vecEntryAt n nextExtraIndex component.value },
        nextExtraIndex + 1, some nextExtraIndex⟩ := by
  simp only [stamp_component, ht, h1, h2, bind, Except.bind, pure, Except.pure, ge_iff_le]
  by_cases hn1 : 0 ≤ n1 <;> by_cases hn2 : 0 ≤ n2 <;>
    simp [hn1, hn2, coeffAdd_ok, coeffSub_ok, vecAdd_ok, hb1, hb2, he0, he1, sub_sub, add_assoc]

theorem stamp_unknown {n : Nat} (component : Component) (mna : MNA n) (netlis : NetList)
    (nextExtraIndex : Int) (ht : component.type = CompType.Unknown) :
    stamp_component component mna netlis nextExtraIndex =
      Except.ok ⟨mna, nextExtraIndex, none⟩ := by
  simp only [stamp_component, ht, pure, Except.pure]

/-! ## Lemmas on the stamping pass -/

theorem index_of_table (nl : NetList) (m : Int) (hm : 0 ≤ m)
    (htbl : nl.node_to_idx = (nodeLoop (List.replicate (m + 1).toNat (-1)) m).1)
    (node : Int) (h0 : 0 ≤ node) (h1 : node ≤ m) :
    index_of nl node = Except.ok (node - 1) := by
  have ht := nodeLoop_table m hm node.toNat
  have hc : ((node.toNat : Nat) : Int) ≤ m := by omega
  simp only [index_of, if_pos h0, htbl, ht, if_pos hc]
  by_cases hz : node.toNat = 0
  · have : node = 0 := by omega
    simp [hz, this]
  · have : ((node.toNat : Nat) : Int) - 1 = node - 1 := by omega
    simp only [if_neg hz, this]

theorem stamp_component_ok {n : Nat} (component : Component) (mna : MNA n) (netlis : NetList)
    (cur n1 n2 : Int)
    (h1 : index_of netlis component.nodes.1 = Except.ok n1)
    (h2 : index_of netlis component.nodes.2 = Except.ok n2)
    (hb1 : n1 < (n : Int)) (hb2 : n2 < (n : Int))
    (he : needsExtra component = true → 0 ≤ cur ∧ cur < (n : Int)) :
    ∃ s, stamp_component component mna netlis cur = Except.ok s ∧
      s.nextExtraIndex = cur + (if needsExtra component then 1 else 0) ∧
      s.extra = if needsExtra component then some cur else none := by
  cases ht : component.type with
  | Resistor =>
    exact ⟨_, stamp_resistor component mna netlis cur n1 n2 ht h1 h2 hb1 hb2,
      by simp [needsExtra, ht], by simp [needsExtra, ht]⟩
  | Capacitor =>
    exact ⟨_, stamp_capacitor component mna netlis cur n1 n2 ht h1 h2 hb1 hb2,
      by simp [needsExtra, ht], by simp [needsExtra, ht]⟩
  | VoltageSource =>
    have hx := he (by simp [needsExtra, ht])
    exact ⟨_, stamp_source component mna netlis cur n1 n2 ht h1 h2 hb1 hb2 hx.1 hx.2,
      by simp [needsExtra, ht], by simp [needsExtra, ht]⟩
  | Inductor =>
    have hx := he (by simp [needsExtra, ht])
    exact ⟨_, stamp_inductor component mna netlis cur n1 n2 ht h1 h2 hb1 hb2 hx.1 hx.2,
      by simp [needsExtra, ht], by simp [needsExtra, ht]⟩
  | Unknown =>
    exact ⟨_, stamp_unknown component mna netlis cur ht,
      by simp [needsExtra, ht], by simp [needsExtra, ht]⟩

theorem stampLoop_ok {n : Nat} (netlist : NetList) :
    ∀ (comps : List Component) (mna : MNA n) (cur : Int),
      (∀ c ∈ comps, ∃ n1 n2, index_of netlist c.nodes.1 = Except.ok n1 ∧
        index_of netlist c.nodes.2 = Except.ok n2 ∧ n1 < (n : Int) ∧ n2 < (n : Int)) →
      0 ≤ cur → cur + (comps.countP needsExtra : Nat) ≤ (n : Int) →
      ∃ r, stampLoop netlist comps mna cur = Except.ok r ∧
        r.nextExtra = cur + (comps.countP needsExtra : Nat) ∧
        r.claimed.length = comps.length ∧
        (∀ (i : Nat) (c : Component), comps[i]? = some c →
          r.claimed[i]? = some (if needsExtra c then
            some (cur + ((comps.take i).countP needsExtra : Nat)) else none)) ∧
        r.claimed.reduceOption =
          (List.range (comps.countP needsExtra)).map (fun j : Nat => cur + (j : Int)) := by
  intro comps
  induction comps with
  | nil =>
    intro mna cur _ _ _
    exact ⟨⟨mna, cur, []⟩, rfl, by simp, rfl, by simp, by simp⟩
  | cons c cs ih =>
    intro mna cur hidx h0 hle
    obtain ⟨n1, n2, h1, h2, hb1, hb2⟩ := hidx c (List.mem_cons_self c cs)
    have hcnt : ((c :: cs).countP needsExtra : Nat) =
        (if needsExtra c then 1 else 0) + cs.countP needsExtra := by
      by_cases hc : needsExtra c = true
      · simp [hc, List.countP_cons_of_pos]; omega
      · simp [hc]
    have he : needsExtra c = true → 0 ≤ cur ∧ cur < (n : Int) := by
      intro hc
      rw [hcnt] at hle
      simp only [hc, if_true] at hle
      push_cast at hle
      omega
    obtain ⟨s, hs, hsn, hse⟩ := stamp_component_ok c mna netlist cur n1 n2 h1 h2 hb1 hb2 he
    have hstep : (0 : Int) ≤ (if needsExtra c then (1 : Int) else 0) := by
      split_ifs <;> decide
    obtain ⟨r, hr, hrn, hrl, hri, hro⟩ := ih s.mna s.nextExtraIndex
      (fun c' hc' => hidx c' (List.mem_cons_of_mem c hc'))
      (by rw [hsn]; omega)
      (by
        rw [hsn]; rw [hcnt] at hle
        by_cases hc : needsExtra c = true
        · simp only [hc, if_true] at hle ⊢; push_cast at hle; omega
        · simp only [hc] at hle ⊢; push_cast at hle; simpa using hle)
    refine ⟨⟨r.mna, r.nextExtra, s.extra :: r.claimed⟩, ?_, ?_, ?_, ?_, ?_⟩
    · simp only [stampLoop, hs, hr, bind, Except.bind, pure, Except.pure]
    · show r.nextExtra = _
      rw [hrn, hsn, hcnt]
      by_cases hc : needsExtra c = true
      · simp only [hc, if_true]; push_cast; ring
      · simp only [hc]; push_cast; ring
    · simp [hrl]
    · intro i c' hc'
      cases i with
      | zero =>
        simp only [List.getElem?_cons_zero, Option.some.injEq] at hc'
        subst hc'
        simp [hse]
      | succ k =>
        simp only [List.getElem?_cons_succ] at hc'
        have := hri k c' hc'
        simp only [List.getElem?_cons_succ, this, List.take_succ_cons, hsn]
        by_cases hc : needsExtra c = true
        · simp only [hc, if_true, List.countP_cons_of_pos]
          push_cast
          simp only [add_assoc, add_comm (1 : Int)]
        · simp only [hc]
          simp [hc]
    · show (s.extra :: r.claimed).reduceOption = _
      rw [hse]
      by_cases hc : needsExtra c = true
      · simp only [hc, if_true, List.reduceOption_cons_of_some, hro, hsn,
          List.countP_cons_of_pos]
        rw [List.range_succ_eq_map]
        simp only [List.map_cons, List.map_map, Nat.cast_zero, add_zero]
        congr 1
        apply List.map_congr_left
        intro j _
        simp only [Function.comp, Nat.succ_eq_add_one]
        push_cast
        ring
      · have hcur : s.nextExtraIndex = cur := by rw [hsn]; simp [hc]
        rw [hcur] at hro
        simpa [hc] using hro

/-! ## Closed form of the stamping pass -/

theorem stamp_component_closed {n : Nat} (c : Component) (mna : MNA n) (netlis : NetList)
    (cur : Int)
    (h1 : index_of netlis c.nodes.1 = Except.ok (c.nodes.1 - 1))
    (h2 : index_of netlis c.nodes.2 = Except.ok (c.nodes.2 - 1))
    (hb1 : c.nodes.1 - 1 < (n : Int)) (hb2 : c.nodes.2 - 1 < (n : Int))
    (he : needsExtra c = true → 0 ≤ cur ∧ cur < (n : Int)) :
    stamp_component c mna netlis cur = Except.ok
      ⟨⟨mna.G + stampG n c cur, mna.C + stampC n c cur, mna.b + stampB n c cur⟩,
        cursorAfter c cur, if needsExtra c then some cur else none⟩ := by
  cases ht : c.type with
  | Resistor =>
    rw [stamp_resistor c mna netlis cur _ _ ht h1 h2 hb1 hb2]
    simp [stampG, stampC, stampB, cursorAfter, needsExtra, ht, add_sub_assoc, add_assoc]
  | Capacitor =>
    rw [stamp_capacitor c mna netlis cur _ _ ht h1 h2 hb1 hb2]
    simp [stampG, stampC, stampB, cursorAfter, needsExtra, ht, add_sub_assoc, add_assoc]
  | VoltageSource =>
    have hx := he (by simp [needsExtra, ht])
    rw [stamp_source c mna netlis cur _ _ ht h1 h2 hb1 hb2 hx.1 hx.2]
    simp [stampG, stampC, stampB, cursorAfter, needsExtra, ht, add_sub_assoc, add_assoc]
  | Inductor =>
    have hx := he (by simp [needsExtra, ht])
    rw [stamp_inductor c mna netlis cur _ _ ht h1 h2 hb1 hb2 hx.1 hx.2]
    simp [stampG, stampC, stampB, cursorAfter, needsExtra, ht, add_sub_assoc, add_assoc]
  | Unknown =>
    rw [stamp_unknown c mna netlis cur ht]
    simp [stampG, stampC, stampB, cursorAfter, needsExtra, ht]

theorem stampLoop_closed {n : Nat} (netlist : NetList) :
    ∀ (comps : List Component) (mna : MNA n) (cur : Int),
      (∀ c ∈ comps, index_of netlist c.nodes.1 = Except.ok (c.nodes.1 - 1) ∧
        index_of netlist c.nodes.2 = Except.ok (c.nodes.2 - 1) ∧
        c.nodes.1 - 1 < (n : Int) ∧ c.nodes.2 - 1 < (n : Int)) →
      0 ≤ cur → cur + (comps.countP needsExtra : Nat) ≤ (n : Int) →
      ∃ r, stampLoop netlist comps mna cur = Except.ok r ∧
        r.mna.G = mna.G + sumG n comps cur ∧
        r.mna.C = mna.C + sumC n comps cur ∧
        r.mna.b = mna.b + sumB n comps cur := by
  intro comps
  induction comps with
  | nil =>
    intro mna cur _ _ _
    exact ⟨⟨mna, cur, []⟩, rfl, by simp [sumG], by simp [sumC], by simp [sumB]⟩
  | cons c cs ih =>
    intro mna cur hidx h0 hle
    obtain ⟨h1, h2, hb1, hb2⟩ := hidx c (List.mem_cons_self c cs)
    have hcnt : (((c :: cs).countP needsExtra : Nat) : Int) =
        (if needsExtra c then 1 else 0) + ((cs.countP needsExtra : Nat) : Int) := by
      by_cases hc : needsExtra c = true
      · simp [hc, List.countP_cons_of_pos]; omega
      · simp [hc]
    have he : needsExtra c = true → 0 ≤ cur ∧ cur < (n : Int) := by
      intro hc
      rw [hcnt] at hle
      simp only [hc, if_true] at hle
      omega
    have hs := stamp_component_closed c mna netlist cur h1 h2 hb1 hb2 he
    have hstep : (0 : Int) ≤ (if needsExtra c then (1 : Int) else 0) := by
      split_ifs <;> decide
    obtain ⟨r, hr, hG, hC, hB⟩ := ih
      ⟨mna.G + stampG n c cur, mna.C + stampC n c cur, mna.b + stampB n c cur⟩
      (cursorAfter c cur)
      (fun c' hc' => hidx c' (List.mem_cons_of_mem c hc'))
      (by simp only [cursorAfter]; omega)
      (by simp only [cursorAfter]; rw [hcnt] at hle; omega)
    refine ⟨⟨r.mna, r.nextExtra, (if needsExtra c then some cur else none) :: r.claimed⟩,
      ?_, ?_, ?_, ?_⟩
    · simp only [stampLoop, hs, hr, bind, Except.bind, pure, Except.pure]
    · show r.mna.G = _
      rw [hG]; simp only [sumG, add_assoc]
    · show r.mna.C = _
      rw [hC]; simp only [sumC, add_assoc]
    · show r.mna.b = _
      rw [hB]; simp only [sumB, add_assoc]

theorem indexed_fields (netlist nl : NetList) (h0 : 0 ≤ netlist.max_nodes)
    (hset : setNodeToIndex netlist = Except.ok nl) :
    nl.components = netlist.components ∧ nl.max_nodes = netlist.max_nodes ∧
    nl.volt_unknows = netlist.max_nodes ∧
    nl.extra_unknows = (netlist.components.countP needsExtra : Nat) ∧
    nl.total_unknows = netlist.max_nodes + (netlist.components.countP needsExtra : Nat) ∧
    ∀ node : Int, 0 ≤ node → node ≤ netlist.max_nodes →
      index_of nl node = Except.ok (node - 1) := by
  rw [setNodeToIndex_ok netlist h0] at hset
  injection hset with hnl
  subst hnl
  exact ⟨rfl, rfl, rfl, rfl, rfl,
    fun node hn0 hn1 => index_of_table _ netlist.max_nodes h0 rfl node hn0 hn1⟩

theorem defineMNA_closed (netlist nl : NetList) (h0 : 0 ≤ netlist.max_nodes)
    (hwf : TerminalsInRange netlist) (hset : setNodeToIndex netlist = Except.ok nl) :
    ∃ mna, defineMNA nl = Except.ok mna ∧
      mna.G = sumG nl.total_unknows.toNat netlist.components netlist.max_nodes ∧
      mna.C = sumC nl.total_unknows.toNat netlist.components netlist.max_nodes ∧
      mna.b = sumB nl.total_unknows.toNat netlist.components netlist.max_nodes := by
  obtain ⟨hcomp, _, hvolt, _, htot, hidx⟩ := indexed_fields netlist nl h0 hset
  have hpre : ∀ c ∈ netlist.components,
      index_of nl c.nodes.1 = Except.ok (c.nodes.1 - 1) ∧
      index_of nl c.nodes.2 = Except.ok (c.nodes.2 - 1) ∧
      c.nodes.1 - 1 < ((nl.total_unknows.toNat : Nat) : Int) ∧
      c.nodes.2 - 1 < ((nl.total_unknows.toNat : Nat) : Int) := by
    intro c hc
    obtain ⟨a0, a1, b0, b1⟩ := hwf c hc
    exact ⟨hidx _ a0 a1, hidx _ b0 b1, by omega, by omega⟩
  obtain ⟨r, hr, hG, hC, hB⟩ := stampLoop_closed nl netlist.components
    (⟨0, 0, 0⟩ : MNA nl.total_unknows.toNat) netlist.max_nodes hpre h0 (by omega)
  have hneg : ¬ nl.total_unknows < 0 := by omega
  refine ⟨r.mna, ?_, by simpa using hG, by simpa using hC, by simpa using hB⟩
  simp only [defineMNA, if_neg hneg, stamp_all, hcomp, hvolt, hr, bind, Except.bind, pure,
    Except.pure]

theorem entryAt_swap (n : Nat) (i j : Int) (v : ℚ) (a b : Fin n) :
    entryAt n i j v a b = entryAt n j i v b a := by
  simp only [entryAt, and_comm]

theorem stampG_symm (n : Nat) (c : Component) (e : Int) (a b : Fin n) :
    stampG n c e a b = stampG n c e b a := by
  cases ht : c.type <;> simp only [stampG, ht, Matrix.zero_apply] <;>
    (split_ifs <;>
      simp only [Matrix.add_apply, Matrix.sub_apply, Matrix.zero_apply,
        entryAt_swap n _ _ _ a b] <;> ring)

theorem sumG_symm (n : Nat) : ∀ (comps : List Component) (e : Int) (a b : Fin n),
    sumG n comps e a b = sumG n comps e b a := by
  intro comps
  induction comps with
  | nil => intro e a b; simp [sumG]
  | cons c cs ih =>
    intro e a b
    simp only [sumG, Matrix.add_apply, stampG_symm n c e a b, ih _ a b]

theorem resistor_defineMNA (R : ℚ) (name : String) :
    defineMNA (resistorNetlist R name) = Except.ok
      ⟨!![1 / R, -(1 / R); -(1 / R), 1 / R], 0, 0⟩ := by
  have h : defineMNA (resistorNetlist R name) =
      (stamp_all (resistorNetlist R name) (zeroMNA 2) 2 >>= fun r => pure r.mna) := rfl
  have i10 : index_of (resistorNetlist R name) 1 = Except.ok 0 := rfl
  have i21 : index_of (resistorNetlist R name) 2 = Except.ok 1 := rfl
  rw [h]
  show (stampLoop (resistorNetlist R name) [⟨CompType.Resistor, (1, 2), R, name⟩]
    (zeroMNA 2) 2 >>= fun r => pure r.mna) = _
  simp only [stampLoop, bind, Except.bind, pure, Except.pure]
  rw [stamp_resistor ⟨CompType.Resistor, (1, 2), R, name⟩ (zeroMNA 2) (resistorNetlist R name)
    2 0 1 rfl i10 i21 (by decide) (by decide)]
  simp only [Except.ok.injEq, MNA.mk.injEq]
  refine ⟨?_, rfl, rfl⟩
  ext i j
  fin_cases i <;> fin_cases j <;>
    simp [entryAt, zeroMNA, inv, Matrix.vecHead, Matrix.vecTail]

theorem grounded_defineMNA :
    defineMNA groundedNetlist = Except.ok ⟨!![1 / 1000], 0, 0⟩ := by
  have h : defineMNA groundedNetlist =
      (stamp_all groundedNetlist (zeroMNA 1) 1 >>= fun r => pure r.mna) := rfl
  have i10 : index_of groundedNetlist 1 = Except.ok 0 := rfl
  have i0g : index_of groundedNetlist 0 = Except.ok (-1) := rfl
  rw [h]
  show (stampLoop groundedNetlist [⟨CompType.Resistor, (1, 0), 1000, "R1"⟩]
    (zeroMNA 1) 1 >>= fun r => pure r.mna) = _
  simp only [stampLoop, bind, Except.bind, pure, Except.pure]
  rw [stamp_resistor ⟨CompType.Resistor, (1, 0), 1000, "R1"⟩ (zeroMNA 1) groundedNetlist
    1 0 (-1) rfl i10 i0g (by decide) (by decide)]
  simp only [Except.ok.injEq, MNA.mk.injEq]
  refine ⟨?_, rfl, rfl⟩
  ext i j
  fin_cases i; fin_cases j
  simp [entryAt, zeroMNA, inv]

/-! ## Circuits of resistors and capacitors -/

theorem coeffAt_add {n : Nat} (A B : Matrix (Fin n) (Fin n) ℚ) (i j : Nat) :
    coeffAt (A + B) i j = coeffAt A i j + coeffAt B i j := by
  unfold coeffAt
  split_ifs <;> simp

theorem coeffAt_zero {n : Nat} (i j : Nat) :
    coeffAt (0 : Matrix (Fin n) (Fin n) ℚ) i j = 0 := by
  unfold coeffAt
  split_ifs <;> simp

theorem sumG_rc (n : Nat) : ∀ (l : List Component) (e : Int),
    (∀ c ∈ l, c.type = CompType.Resistor ∨ c.type = CompType.Capacitor) →
    ∀ i j : Nat, coeffAt (sumG n l e) i j =
      (l.map (fun c => coeffAt (stampG n c 0) i j)).sum := by
  intro l
  induction l with
  | nil => intro e _ i j; simp [sumG, coeffAt_zero]
  | cons c cs ih =>
    intro e h i j
    have hc := h c (List.mem_cons_self c cs)
    have hcur : cursorAfter c e = e := by
      rcases hc with hc | hc <;> simp [cursorAfter, needsExtra, hc]
    have hst : stampG n c e = stampG n c 0 := by
      rcases hc with hc | hc <;> simp only [stampG, hc]
    simp only [sumG, coeffAt_add, hcur, hst, List.map_cons, List.sum_cons,
      ih e (fun c' hc' => h c' (List.mem_cons_of_mem c hc')) i j]

theorem sumC_rc (n : Nat) : ∀ (l : List Component) (e : Int),
    (∀ c ∈ l, c.type = CompType.Resistor ∨ c.type = CompType.Capacitor) →
    ∀ i j : Nat, coeffAt (sumC n l e) i j =
      (l.map (fun c => coeffAt (stampC n c 0) i j)).sum := by
  intro l
  induction l with
  | nil => intro e _ i j; simp [sumC, coeffAt_zero]
  | cons c cs ih =>
    intro e h i j
    have hc := h c (List.mem_cons_self c cs)
    have hcur : cursorAfter c e = e := by
      rcases hc with hc | hc <;> simp [cursorAfter, needsExtra, hc]
    have hst : stampC n c e = stampC n c 0 := by
      rcases hc with hc | hc <;> simp only [stampC, hc]
    simp only [sumC, coeffAt_add, hcur, hst, List.map_cons, List.sum_cons,
      ih e (fun c' hc' => h c' (List.mem_cons_of_mem c hc')) i j]

theorem rc_closed (m : Int) (h0 : 0 ≤ m) (l : List Component)
    (hrc : ∀ c ∈ l, (c.type = CompType.Resistor ∨ c.type = CompType.Capacitor) ∧
      0 ≤ c.nodes.1 ∧ c.nodes.1 ≤ m ∧ 0 ≤ c.nodes.2 ∧ c.nodes.2 ≤ m) :
    ∃ nl mna, setNodeToIndex (circuitOf m l) = Except.ok nl ∧
      defineMNA nl = Except.ok mna ∧ nl.total_unknows = m ∧
      (∀ i j : Nat, coeffAt mna.G i j =
        (l.map (fun c => coeffAt (stampG m.toNat c 0) i j)).sum) ∧
      (∀ i j : Nat, coeffAt mna.C i j =
        (l.map (fun c => coeffAt (stampC m.toNat c 0) i j)).sum) := by
  have hcount : l.countP needsExtra = 0 := by
    rw [List.countP_eq_zero]
    intro c hc
    rcases (hrc c hc).1 with h | h <;> simp [needsExtra, h]
  have hset := setNodeToIndex_ok (circuitOf m l) h0
  obtain ⟨_, _, _, _, htot, _⟩ := indexed_fields (circuitOf m l) _ h0 hset
  have hwf : TerminalsInRange (circuitOf m l) := fun c hc => (hrc c hc).2
  obtain ⟨mna, hm, hG, hC, _⟩ := defineMNA_closed (circuitOf m l) _ h0 hwf hset
  have htot2 : ({ circuitOf m l with
      node_to_idx := (nodeLoop (List.replicate ((circuitOf m l).max_nodes + 1).toNat (-1))
        (circuitOf m l).max_nodes).1
      volt_unknows := (circuitOf m l).max_nodes
      extra_unknows := ((circuitOf m l).components.countP needsExtra : Nat)
      total_unknows := (circuitOf m l).max_nodes +
        ((circuitOf m l).components.countP needsExtra : Nat) } : NetList).total_unknows = m := by
    show m + ((l.countP needsExtra : Nat) : Int) = m
    rw [hcount]; simp
  have hn : (m + ((l.countP needsExtra : Nat) : Int)).toNat = m.toNat := by
    rw [hcount]; simp
  refine ⟨_, mna, hset, hm, htot2, ?_, ?_⟩
  · intro i j
    rw [hG]
    show coeffAt (sumG (m + ((l.countP needsExtra : Nat) : Int)).toNat l m) i j = _
    rw [hn]
    exact sumG_rc m.toNat l m (fun c hc => (hrc c hc).1) i j
  · intro i j
    rw [hC]
    show coeffAt (sumC (m + ((l.countP needsExtra : Nat) : Int)).toNat l m) i j = _
    rw [hn]
    exact sumC_rc m.toNat l m (fun c hc => (hrc c hc).1) i j

/-! ## Lemmas on the integrator -/

theorem eulerLoop_spec (solve : Solver) {n : Nat} (M : Matrix (Fin n) (Fin n) ℚ) (mna : MNA n)
    (dt : ℚ) : ∀ (iters : Nat) (x : Fin n → ℚ) (history : List (Fin n → ℚ)),
      history.getLast? = some x →
      (eulerLoop solve M mna dt iters x history).length = history.length + iters ∧
      (∀ i : Nat, i < history.length →
        (eulerLoop solve M mna dt iters x history)[i]? = history[i]?) ∧
      ∀ k : Nat, history.length ≤ k + 1 → k + 1 < history.length + iters →
        ∃ xk xk1, (eulerLoop solve M mna dt iters x history)[k]? = some xk ∧
          (eulerLoop solve M mna dt iters x history)[k + 1]? = some xk1 ∧
          xk1 = solve n M (mna.b + (divScalar mna.C dt).mulVec xk) := by
  intro iters
  induction iters with
  | zero =>
    intro x history _
    refine ⟨rfl, fun _ _ => rfl, ?_⟩
    intro k h1 h2
    omega
  | succ it ih =>
    intro x history hlast
    have hlast2 : (history ++ [solve n M (mna.b + (divScalar mna.C dt).mulVec x)]).getLast?
        = some (solve n M (mna.b + (divScalar mna.C dt).mulVec x)) := by simp
    obtain ⟨hlen, hpre, hrec⟩ := ih _ _ hlast2
    simp only [eulerLoop]
    simp only [List.length_append, List.length_singleton] at hlen hpre hrec
    refine ⟨by omega, ?_, ?_⟩
    · intro i hi
      rw [hpre i (by omega), List.getElem?_append_left hi]
    · intro k h1 h2
      by_cases hk : k + 1 = history.length
      · refine ⟨x, _, ?_, ?_, rfl⟩
        · rw [hpre k (by omega), List.getElem?_append_left (by omega)]
          rw [List.getLast?_eq_getElem?] at hlast
          have : history.length - 1 = k := by omega
          rw [this] at hlast
          exact hlast
        · rw [hpre (k + 1) (by omega), hk]
          simp
      · exact hrec k (by omega) (by omega)

theorem printReadsOk_table (nl : NetList) (m : Int) (extra : Nat) (hm : 0 ≤ m)
    (htbl : nl.node_to_idx = (nodeLoop (List.replicate (m + 1).toNat (-1)) m).1)
    (hv : nl.volt_unknows = m) :
    printReadsOk nl (m + (extra : Int)).toNat = true := by
  simp only [printReadsOk, List.all_eq_true, hv, htbl]
  intro t ht
  rw [List.mem_range'_1] at ht
  have h0 : t ≠ 0 := by omega
  have h1 : (t : Int) ≤ m := by omega
  simp only [nodeLoop_table m hm t, if_neg h0, if_pos h1, decide_eq_true_eq]
  omega

theorem simulate_ok (solve : Solver) (netlist nl : NetList) (h0 : 0 ≤ netlist.max_nodes)
    (hset : setNodeToIndex netlist = Except.ok nl) (mna : MNA nl.total_unknows.toNat)
    (simconf : SimConf) (hsteps : 0 ≤ simconf.steps) :
    simulate_backward_euler solve nl mna simconf = Except.ok
      (eulerLoop solve (mna.G + divScalar mna.C simconf.dt) mna simconf.dt
        simconf.steps.toNat 0 [0]) := by
  rw [setNodeToIndex_ok netlist h0] at hset
  injection hset with hnl
  subst hnl
  have hs : ¬ simconf.steps + 1 < 0 := by omega
  have hp := printReadsOk_table
    { netlist with
      node_to_idx := (nodeLoop (List.replicate (netlist.max_nodes + 1).toNat (-1))
        netlist.max_nodes).1
      volt_unknows := netlist.max_nodes
      extra_unknows := (netlist.components.countP needsExtra : Nat)
      total_unknows := netlist.max_nodes + (netlist.components.countP needsExtra : Nat) }
    netlist.max_nodes (netlist.components.countP needsExtra) h0 rfl rfl
  have ht : ¬ netlist.max_nodes + ((netlist.components.countP needsExtra : Nat) : Int) < 0 := by
    omega
  simp only [simulate_backward_euler, if_neg hs, if_neg ht]
  simp only at hp
  rw [if_pos hp]

theorem cramerSolve_exact : SolvesExactly cramerSolve := by
  intro n M rhs hdet
  have hne : M.det ≠ 0 := hdet.ne_zero
  have hc : cramerSolve n M rhs = (M.det)⁻¹ • Matrix.cramer M rhs := by
    funext i
    simp [cramerSolve, Matrix.cramer_apply]
  rw [hc, Matrix.mulVec_smul, Matrix.mulVec_cramer, smul_smul, inv_mul_cancel₀ hne, one_smul]

theorem series_iteration_det :
    (seriesMNA.G + divScalar seriesMNA.C (1 / 1000)).det = -(1 / 500) := by
  rw [Matrix.det_fin_three]
  simp [seriesMNA, divScalar, Matrix.vecHead, Matrix.vecTail]
  norm_num

theorem simulate_ok_ge (solve : Solver) (netlist nl : NetList) (h0 : 0 ≤ netlist.max_nodes)
    (hset : setNodeToIndex netlist = Except.ok nl) (mna : MNA nl.total_unknows.toNat)
    (simconf : SimConf) (hsteps : -1 ≤ simconf.steps) :
    simulate_backward_euler solve nl mna simconf = Except.ok
      (eulerLoop solve (mna.G + divScalar mna.C simconf.dt) mna simconf.dt
        simconf.steps.toNat 0 [0]) := by
  obtain ⟨_, _, hvolt, _, htot, _⟩ := indexed_fields netlist nl h0 hset
  have hs : ¬ simconf.steps + 1 < 0 := by omega
  have ht : ¬ nl.total_unknows < 0 := by omega
  have hp : printReadsOk nl nl.total_unknows.toNat = true := by
    rw [setNodeToIndex_ok netlist h0] at hset
    injection hset with hnl
    subst hnl
    exact printReadsOk_table _ netlist.max_nodes (netlist.components.countP needsExtra) h0
      rfl rfl
  simp only [simulate_backward_euler, if_neg hs, if_neg ht, if_pos hp]

theorem simulate_length_error (solve : Solver) (netlist nl : NetList)
    (h0 : 0 ≤ netlist.max_nodes) (hset : setNodeToIndex netlist = Except.ok nl)
    (mna : MNA nl.total_unknows.toNat) (simconf : SimConf) (hsteps : simconf.steps < -1) :
    simulate_backward_euler solve nl mna simconf = Except.error Fault.length_error := by
  obtain ⟨_, _, _, _, htot, _⟩ := indexed_fields netlist nl h0 hset
  have hs : simconf.steps + 1 < 0 := by omega
  have ht : ¬ nl.total_unknows < 0 := by omega
  simp only [simulate_backward_euler, if_pos hs, if_neg ht]

theorem floating_defineMNA : defineMNA floatingNetlist = Except.ok floatingMNA := by
  have h : defineMNA floatingNetlist =
      (stamp_all floatingNetlist (zeroMNA 1) 0 >>= fun r => pure r.mna) := rfl
  have i0g : index_of floatingNetlist 0 = Except.ok (-1) := rfl
  rw [h]
  show (stampLoop floatingNetlist [⟨CompType.VoltageSource, (0, 0), 5, "V1"⟩]
    (zeroMNA 1) 0 >>= fun r => pure r.mna) = _
  simp only [stampLoop, bind, Except.bind, pure, Except.pure]
  rw [stamp_source ⟨CompType.VoltageSource, (0, 0), 5, "V1"⟩ (zeroMNA 1) floatingNetlist
    0 (-1) (-1) rfl i0g i0g (by decide) (by decide) (by decide) (by decide)]
  simp only [Except.ok.injEq, floatingMNA, MNA.mk.injEq]
  refine ⟨?_, rfl, ?_⟩
  · ext i j
    fin_cases i; fin_cases j
    simp [zeroMNA]
  · ext i
    fin_cases i
    simp [vecEntryAt, zeroMNA]

theorem sumB_no_source (n : Nat) : ∀ (l : List Component) (e : Int),
    (∀ c ∈ l, c.type ≠ CompType.VoltageSource) → sumB n l e = 0 := by
  intro l
  induction l with
  | nil => intro e _; rfl
  | cons c cs ih =>
    intro e h
    have hc := h c (List.mem_cons_self c cs)
    have hb : stampB n c e = 0 := by
      cases ht : c.type <;> simp_all [stampB]
    simp only [sumB, hb, zero_add]
    exact ih _ (fun c' hc' => h c' (List.mem_cons_of_mem c hc'))

theorem eulerLoop_rest (solve : Solver) (hsolve : SolvesExactly solve) {n : Nat}
    (M : Matrix (Fin n) (Fin n) ℚ) (mna : MNA n) (dt : ℚ) (hb : mna.b = 0)
    (hinv : IsUnit M.det) :
    ∀ (iters : Nat) (history : List (Fin n → ℚ)), (∀ x ∈ history, x = 0) →
      ∀ x ∈ eulerLoop solve M mna dt iters 0 history, x = 0 := by
  have hzero : solve n M (mna.b + (divScalar mna.C dt).mulVec 0) = 0 := by
    have h := hsolve n M (mna.b + (divScalar mna.C dt).mulVec 0) hinv
    rw [hb, Matrix.mulVec_zero, add_zero] at h ⊢
    exact Matrix.eq_zero_of_mulVec_eq_zero hinv.ne_zero h
  intro iters
  induction iters with
  | zero => intro history hh x hx; exact hh x hx
  | succ it ih =>
    intro history hh x hx
    simp only [eulerLoop, hzero] at hx
    refine ih (history ++ [0]) ?_ x hx
    intro y hy
    rcases List.mem_append.mp hy with h | h
    · exact hh y h
    · simpa using h

/-! ## The series circuit -/

theorem series_stamp_all :
    stamp_all seriesNetlist (zeroMNA 3) 2 = Except.ok ⟨seriesMNA, 3, [some 2, none, none]⟩ := by
  show stampLoop seriesNetlist [sampleSource, sampleResistor, sampleCapacitor] (zeroMNA 3) 2 = _
  simp only [stampLoop, bind, Except.bind, pure, Except.pure]
  have i10 : index_of seriesNetlist 1 = Except.ok 0 := rfl
  have i21 : index_of seriesNetlist 2 = Except.ok 1 := rfl
  have i0g : index_of seriesNetlist 0 = Except.ok (-1) := rfl
  rw [stamp_source sampleSource (zeroMNA 3) seriesNetlist 2 0 (-1) rfl i10 i0g
    (by decide) (by decide) (by decide) (by decide)]
  simp only []
  rw [stamp_resistor sampleResistor _ seriesNetlist _ 0 1 rfl i10 i21 (by decide) (by decide)]
  simp only []
  rw [stamp_capacitor sampleCapacitor _ seriesNetlist _ 1 (-1) rfl i21 i0g
    (by decide) (by decide)]
  simp only [Except.ok.injEq, StampedAll.mk.injEq]
  refine ⟨?_, by norm_num, trivial⟩
  simp only [seriesMNA, MNA.mk.injEq]
  refine ⟨?_, ?_, ?_⟩
  · ext i j
    fin_cases i <;> fin_cases j <;>
      simp [entryAt, zeroMNA, inv, sampleResistor, Matrix.vecHead, Matrix.vecTail]
  · ext i j
    fin_cases i <;> fin_cases j <;>
      simp [entryAt, zeroMNA, sampleCapacitor, Matrix.vecHead, Matrix.vecTail]
  · ext i
    fin_cases i <;> simp [vecEntryAt, zeroMNA, sampleSource, Matrix.vecHead, Matrix.vecTail]

theorem series_defineMNA : defineMNA seriesNetlist = Except.ok seriesMNA := by
  have h : defineMNA seriesNetlist =
      (stamp_all seriesNetlist (zeroMNA 3) 2 >>= fun r => pure r.mna) := rfl
  rw [h, series_stamp_all]
  rfl

theorem series_unique (x : Fin 3 → ℚ)
    (hx : (seriesMNA.G + divScalar seriesMNA.C (1 / 1000)).mulVec x = seriesMNA.b) :
    x = ![5, 5 / 2, -(1 / 400)] := by
  have e0 := congrFun hx 0
  have e1 := congrFun hx 1
  have e2 := congrFun hx 2
  simp [Matrix.mulVec, Matrix.dotProduct, Fin.sum_univ_three, seriesMNA, divScalar,
    Matrix.vecHead, Matrix.vecTail] at e0 e1 e2
  funext i
  fin_cases i
  · simp; linarith
  · simp; linarith
  · simp [Matrix.vecHead, Matrix.vecTail]; linarith

/-! ## Claims on the unknown indexer -/

/-- C1: for every `max_nodes = m ≥ 0` and every component list, `setNodeToIndex` succeeds
and leaves a table `node_to_idx` of length `m + 1` in which ground (terminal 0) holds the
sentinel `-1` and every terminal `t` with `1 ≤ t ≤ m` holds `t - 1`, whatever the components
are; the table is exactly `[-1, 0, 1, ..., m-1]`, so the indices of the terminals are pairwise
distinct and are exactly `0 .. m-1`. -/
theorem setNodeToIndex_node_to_idx (netlist : NetList) (h : 0 ≤ netlist.max_nodes) :
    ∃ nl, setNodeToIndex netlist = Except.ok nl ∧
      (nl.node_to_idx.length : Int) = netlist.max_nodes + 1 ∧
      nl.node_to_idx[0]? = some (-1) ∧
      (∀ t : Nat, 1 ≤ t → (t : Int) ≤ netlist.max_nodes →
        nl.node_to_idx[t]? = some ((t : Int) - 1)) ∧
      nl.node_to_idx =
        (-1) :: (List.range netlist.max_nodes.toNat).map (fun k : Nat => (k : Int)) := by
  refine ⟨_, setNodeToIndex_ok netlist h, ?_, ?_, ?_, ?_⟩
  · have h2 := (nodeLoop_foldl netlist.max_nodes.toNat 1
      (List.replicate (netlist.max_nodes + 1).toNat (-1)) 0).2.1
    simp only [nodeLoop, h2, List.length_replicate]
    omega
  · simp only [nodeLoop_table _ h 0, if_true]
  · intro t ht1 htm
    have ht0 : t ≠ 0 := by omega
    simp only [nodeLoop_table _ h t, if_neg ht0, if_pos htm]
  · apply List.ext_getElem?
    intro p
    simp only [nodeLoop_table _ h p]
    cases p with
    | zero => simp
    | succ q =>
      simp only [Nat.succ_ne_zero, if_false, List.getElem?_cons_succ, List.getElem?_map]
      by_cases hq : ((q + 1 : Nat) : Int) ≤ netlist.max_nodes
      · have hq2 : q < netlist.max_nodes.toNat := by omega
        rw [if_pos hq, List.getElem?_range hq2]
        simp
      · have hq2 : (List.range netlist.max_nodes.toNat).length ≤ q := by simp; omega
        rw [if_neg hq, List.getElem?_eq_none hq2]
        simp

/-- C1 at the series circuit (`max_nodes = 2`). -/
theorem setNodeToIndex_node_to_idx_witness :
    (0 : Int) ≤ seriesCircuit.max_nodes ∧
    ∃ nl, setNodeToIndex seriesCircuit = Except.ok nl ∧
      (nl.node_to_idx.length : Int) = seriesCircuit.max_nodes + 1 ∧
      nl.node_to_idx[0]? = some (-1) ∧
      (∀ t : Nat, 1 ≤ t → (t : Int) ≤ seriesCircuit.max_nodes →
        nl.node_to_idx[t]? = some ((t : Int) - 1)) ∧
      nl.node_to_idx =
        (-1) :: (List.range seriesCircuit.max_nodes.toNat).map (fun k : Nat => (k : Int)) :=
  ⟨by decide, setNodeToIndex_node_to_idx seriesCircuit (by decide)⟩

/-- C2: for every circuit model (`max_nodes ≥ 0`), `setNodeToIndex` succeeds and afterwards
`volt_unknows` equals `max_nodes`, `extra_unknows` equals the number of components whose
type is `Inductor` or `VoltageSource` (components of the other three types are not counted),
and `total_unknows = volt_unknows + extra_unknows`; the components and `max_nodes` are left
as they were. -/
theorem setNodeToIndex_counts (netlist : NetList) (h : 0 ≤ netlist.max_nodes) :
    ∃ nl, setNodeToIndex netlist = Except.ok nl ∧
      nl.volt_unknows = netlist.max_nodes ∧
      nl.extra_unknows = (netlist.components.countP
        (fun c => decide (c.type = CompType.Inductor ∨ c.type = CompType.VoltageSource)) : Nat) ∧
      nl.total_unknows = nl.volt_unknows + nl.extra_unknows ∧
      nl.components = netlist.components ∧ nl.max_nodes = netlist.max_nodes := by
  refine ⟨_, setNodeToIndex_ok netlist h, rfl, ?_, rfl, rfl, rfl⟩
  have hp : needsExtra = (fun c : Component =>
      decide (c.type = CompType.Inductor ∨ c.type = CompType.VoltageSource)) := by
    funext c
    cases hc : c.type <;> simp [needsExtra, hc]
  simp only [hp]

/-- C2 at the series circuit. -/
theorem setNodeToIndex_counts_witness :
    (0 : Int) ≤ seriesCircuit.max_nodes ∧
    ∃ nl, setNodeToIndex seriesCircuit = Except.ok nl ∧
      nl.volt_unknows = seriesCircuit.max_nodes ∧
      nl.extra_unknows = (seriesCircuit.components.countP
        (fun c => decide (c.type = CompType.Inductor ∨ c.type = CompType.VoltageSource)) : Nat) ∧
      nl.total_unknows = nl.volt_unknows + nl.extra_unknows ∧
      nl.components = seriesCircuit.components ∧ nl.max_nodes = seriesCircuit.max_nodes :=
  ⟨by decide, setNodeToIndex_counts seriesCircuit (by decide)⟩

/-! ## Claims on the stamper -/

/-- C3: for every circuit model (`max_nodes ≥ 0`, terminals within `0 .. max_nodes`) whose
table and counts were computed by `setNodeToIndex`, `stamp_all` started with the cursor at
`volt_unknows` on a system of dimension `total_unknows` completes; the component at position
`i` claims an extra index exactly when it is an `Inductor` or a `VoltageSource`, and then
claims `volt_unknows + j`, where `j` is the number of such components before it; so the
claimed indices are, in order, `volt_unknows, volt_unknows + 1, ...` (`extra_unknows` of
them), pairwise distinct, all in `[volt_unknows, total_unknows)`, and the final cursor is
`total_unknows`. -/
theorem stamp_all_extra_indices (netlist nl : NetList) (h0 : 0 ≤ netlist.max_nodes)
    (hwf : TerminalsInRange netlist) (hset : setNodeToIndex netlist = Except.ok nl)
    (mna : MNA nl.total_unknows.toNat) :
    ∃ r, stamp_all nl mna nl.volt_unknows = Except.ok r ∧
      r.nextExtra = nl.total_unknows ∧
      (∀ (i : Nat) (c : Component), nl.components[i]? = some c →
        r.claimed[i]? = some (if needsExtra c then
          some (nl.volt_unknows + ((nl.components.take i).countP needsExtra : Nat))
          else none)) ∧
      r.claimed.reduceOption =
        (List.range nl.extra_unknows.toNat).map (fun j : Nat => nl.volt_unknows + (j : Int)) ∧
      r.claimed.reduceOption.Nodup ∧
      ∀ e ∈ r.claimed.reduceOption, nl.volt_unknows ≤ e ∧ e < nl.total_unknows := by
  rw [setNodeToIndex_ok netlist h0] at hset
  injection hset with hnl
  subst hnl
  simp only at mna ⊢
  have hidx : ∀ c ∈ netlist.components, ∃ n1 n2,
      index_of { netlist with
        node_to_idx := (nodeLoop (List.replicate (netlist.max_nodes + 1).toNat (-1))
          netlist.max_nodes).1
        volt_unknows := netlist.max_nodes
        extra_unknows := (netlist.components.countP needsExtra : Nat)
        total_unknows := netlist.max_nodes + (netlist.components.countP needsExtra : Nat) }
        c.nodes.1 = Except.ok n1 ∧
      index_of { netlist with
        node_to_idx := (nodeLoop (List.replicate (netlist.max_nodes + 1).toNat (-1))
          netlist.max_nodes).1
        volt_unknows := netlist.max_nodes
        extra_unknows := (netlist.components.countP needsExtra : Nat)
        total_unknows := netlist.max_nodes + (netlist.components.countP needsExtra : Nat) }
        c.nodes.2 = Except.ok n2 ∧
      n1 < (((netlist.max_nodes + (netlist.components.countP needsExtra : Nat)).toNat : Nat)
        : Int) ∧
      n2 < (((netlist.max_nodes + (netlist.components.countP needsExtra : Nat)).toNat : Nat)
        : Int) := by
    intro c hc
    obtain ⟨a0, a1, b0, b1⟩ := hwf c hc
    exact ⟨c.nodes.1 - 1, c.nodes.2 - 1,
      index_of_table _ netlist.max_nodes h0 rfl _ a0 a1,
      index_of_table _ netlist.max_nodes h0 rfl _ b0 b1, by omega, by omega⟩
  obtain ⟨r, hr, hrn, _, hri, hro⟩ := stampLoop_ok _ netlist.components mna netlist.max_nodes
    hidx h0 (by omega)
  have hk : (((netlist.components.countP needsExtra : Nat) : Int)).toNat =
      netlist.components.countP needsExtra := by omega
  refine ⟨r, hr, hrn, hri, ?_, ?_, ?_⟩
  · rw [hro, hk]
  · rw [hro]
    apply List.Nodup.map
    · intro a b hab
      simp only at hab
      omega
    · exact List.nodup_range _
  · intro e he
    rw [hro] at he
    simp only [List.mem_map, List.mem_range] at he
    obtain ⟨j, hj, rfl⟩ := he
    omega

/-- C3 at the series circuit. -/
theorem stamp_all_extra_indices_witness :
    ((0 : Int) ≤ seriesCircuit.max_nodes ∧ TerminalsInRange seriesCircuit ∧
      setNodeToIndex seriesCircuit = Except.ok seriesNetlist) ∧
    ∃ r, stamp_all seriesNetlist (zeroMNA seriesNetlist.total_unknows.toNat)
        seriesNetlist.volt_unknows = Except.ok r ∧
      r.nextExtra = seriesNetlist.total_unknows ∧
      (∀ (i : Nat) (c : Component), seriesNetlist.components[i]? = some c →
        r.claimed[i]? = some (if needsExtra c then
          some (seriesNetlist.volt_unknows +
            ((seriesNetlist.components.take i).countP needsExtra : Nat))
          else none)) ∧
      r.claimed.reduceOption =
        (List.range seriesNetlist.extra_unknows.toNat).map
          (fun j : Nat => seriesNetlist.volt_unknows + (j : Int)) ∧
      r.claimed.reduceOption.Nodup ∧
      ∀ e ∈ r.claimed.reduceOption,
        seriesNetlist.volt_unknows ≤ e ∧ e < seriesNetlist.total_unknows :=
  have hwf : TerminalsInRange seriesCircuit := by
    intro c hc
    simp only [seriesCircuit, List.mem_cons, List.mem_singleton, List.not_mem_nil,
      or_false] at hc
    rcases hc with rfl | rfl | rfl <;> decide
  ⟨⟨by decide, hwf, rfl⟩,
    stamp_all_extra_indices seriesCircuit seriesNetlist (by decide) hwf rfl
      (zeroMNA seriesNetlist.total_unknows.toNat)⟩

/-- C4: for every `Resistor` of value `R` whose terminals map to the indices `n1`, `n2`
(`-1` for ground; both below the dimension of the system), `stamp_component` completes and,
with `g = inv R = 1 / R`, adds `g` to `G[n1,n1]` if `0 ≤ n1`, adds `g` to `G[n2,n2]` if
`0 ≤ n2`, and subtracts `g` from `G[n1,n2]` and from `G[n2,n1]` if both hold; every other
coefficient of `G`, the whole of `C`, the vector `b` and the cursor are unchanged, and no
extra index is claimed. -/
theorem stamp_component_resistor {n : Nat} (component : Component) (mna : MNA n) (netlis : NetList)
    (nextExtraIndex n1 n2 : Int)
    (ht : component.type = CompType.Resistor)
    (h1 : index_of netlis component.nodes.1 = Except.ok n1)
    (h2 : index_of netlis component.nodes.2 = Except.ok n2)
    (hb1 : n1 < (n : Int)) (hb2 : n2 < (n : Int)) :
    stamp_component component mna netlis nextExtraIndex = Except.ok
      ⟨{ G := mna.G
              + (if 0 ≤ n1 then entryAt n n1 n1 (inv component.value) else 0)
              + (if 0 ≤ n2 then entryAt n n2 n2 (inv component.value) else 0)
              - (if 0 ≤ n1 ∧ 0 ≤ n2 then
                  entryAt n n1 n2 (inv component.value) + entryAt n n2 n1 (inv component.value)
                else 0)
         C := mna.C
         b := mna.b }, nextExtraIndex, none⟩ :=
  stamp_resistor component mna netlis nextExtraIndex n1 n2 ht h1 h2 hb1 hb2

/-- C4 at a component of the series circuit, on the zero system of dimension 3. -/
theorem stamp_component_resistor_witness :
    (sampleResistor.type = CompType.Resistor ∧
      index_of seriesNetlist sampleResistor.nodes.1 = Except.ok 0 ∧
      index_of seriesNetlist sampleResistor.nodes.2 = Except.ok 1 ∧
      (0 : Int) < ((3 : Nat) : Int) ∧ (1 : Int) < ((3 : Nat) : Int)) ∧
    stamp_component sampleResistor (zeroMNA 3) seriesNetlist 3 = Except.ok
      ⟨{ G := (zeroMNA 3).G
              + (if (0 : Int) ≤ 0 then entryAt 3 0 0 (inv sampleResistor.value) else 0)
              + (if (0 : Int) ≤ 1 then entryAt 3 1 1 (inv sampleResistor.value) else 0)
              - (if (0 : Int) ≤ 0 ∧ (0 : Int) ≤ 1 then
                  entryAt 3 0 1 (inv sampleResistor.value) + entryAt 3 1 0 (inv sampleResistor.value)
                else 0)
         C := (zeroMNA 3).C
         b := (zeroMNA 3).b }, 3, none⟩ :=
  ⟨⟨rfl, rfl, rfl, by decide, by decide⟩,
    stamp_component_resistor sampleResistor (zeroMNA 3) seriesNetlist 3 0 1 rfl rfl rfl
      (by decide) (by decide)⟩

/-- C5: for every `Capacitor` of value `Cv` whose terminals map to the indices `n1`, `n2`
(`-1` for ground; both below the dimension of the system), `stamp_component` completes and
applies the resistor pattern to the dynamic matrix with weight `Cv`: it adds `Cv` to
`C[n1,n1]` if `0 ≤ n1`, adds `Cv` to `C[n2,n2]` if `0 ≤ n2`, and subtracts `Cv` from
`C[n1,n2]` and from `C[n2,n1]` if both hold; `G`, `b` and the cursor are unchanged and no
extra index is claimed. -/
theorem stamp_component_capacitor {n : Nat} (component : Component) (mna : MNA n) (netlis : NetList)
    (nextExtraIndex n1 n2 : Int)
    (ht : component.type = CompType.Capacitor)
    (h1 : index_of netlis component.nodes.1 = Except.ok n1)
    (h2 : index_of netlis component.nodes.2 = Except.ok n2)
    (hb1 : n1 < (n : Int)) (hb2 : n2 < (n : Int)) :
    stamp_component component mna netlis nextExtraIndex = Except.ok
      ⟨{ G := mna.G
         C := mna.C
              + (if 0 ≤ n1 then entryAt n n1 n1 component.value else 0)
              + (if 0 ≤ n2 then entryAt n n2 n2 component.value else 0)
              - (if 0 ≤ n1 ∧ 0 ≤ n2 then
                  entryAt n n1 n2 component.value + entryAt n n2 n1 component.value
                else 0)
         b := mna.b }, nextExtraIndex, none⟩ :=
  stamp_capacitor component mna netlis nextExtraIndex n1 n2 ht h1 h2 hb1 hb2

/-- C5 at a component of the series circuit, on the zero system of dimension 3. -/
theorem stamp_component_capacitor_witness :
    (sampleCapacitor.type = CompType.Capacitor ∧
      index_of seriesNetlist sampleCapacitor.nodes.1 = Except.ok 1 ∧
      index_of seriesNetlist sampleCapacitor.nodes.2 = Except.ok (-1) ∧
      (1 : Int) < ((3 : Nat) : Int) ∧ ((-1) : Int) < ((3 : Nat) : Int)) ∧
    stamp_component sampleCapacitor (zeroMNA 3) seriesNetlist 3 = Except.ok
      ⟨{ G := (zeroMNA 3).G
         C := (zeroMNA 3).C
              + (if (0 : Int) ≤ 1 then entryAt 3 1 1 sampleCapacitor.value else 0)
              + (if (0 : Int) ≤ (-1) then entryAt 3 (-1) (-1) sampleCapacitor.value else 0)
              - (if (0 : Int) ≤ 1 ∧ (0 : Int) ≤ (-1) then
                  entryAt 3 1 (-1) sampleCapacitor.value + entryAt 3 (-1) 1 sampleCapacitor.value
                else 0)
         b := (zeroMNA 3).b }, 3, none⟩ :=
  ⟨⟨rfl, rfl, rfl, by decide, by decide⟩,
    stamp_component_capacitor sampleCapacitor (zeroMNA 3) seriesNetlist 3 1 (-1) rfl rfl rfl
      (by decide) (by decide)⟩

/-- C6: for every `Inductor` of value `L` whose terminals map to the indices `n1`, `n2`
(`-1` for ground; both below the dimension), stamped with the cursor at a position `e` of
the system, `stamp_component` completes, claims the extra index `e` and advances the cursor
to `e + 1`; it adds 1 to `G[n1,e]` and `G[e,n1]` if `0 ≤ n1`, subtracts 1 from `G[n2,e]` and
`G[e,n2]` if `0 ≤ n2`, and adds `L` to `C[e,e]`; every other coefficient of `G` and `C` and
the whole of `b` are unchanged. -/
theorem stamp_component_inductor {n : Nat} (component : Component) (mna : MNA n) (netlis : NetList)
    (nextExtraIndex n1 n2 : Int)
    (ht : component.type = CompType.Inductor)
    (h1 : index_of netlis component.nodes.1 = Except.ok n1)
    (h2 : index_of netlis component.nodes.2 = Except.ok n2)
    (hb1 : n1 < (n : Int)) (hb2 : n2 < (n : Int))
    (he0 : 0 ≤ nextExtraIndex) (he1 : nextExtraIndex < (n : Int)) :
    stamp_component component mna netlis nextExtraIndex = Except.ok
      ⟨{ G := mna.G
              + (if 0 ≤ n1 then
                  entryAt n n1 nextExtraIndex 1 + entryAt n nextExtraIndex n1 1 else 0)
              - (if 0 ≤ n2 then
                  entryAt n n2 nextExtraIndex 1 + entryAt n nextExtraIndex n2 1 else 0)
         C := mna.C + entryAt n nextExtraIndex nextExtraIndex component.value
         b := mna.b }, nextExtraIndex + 1, some nextExtraIndex⟩ :=
  stamp_inductor component mna netlis nextExtraIndex n1 n2 ht h1 h2 hb1 hb2 he0 he1

/-- C6 at a component of the series circuit, on the zero system of dimension 3. -/
theorem stamp_component_inductor_witness :
    (sampleInductor.type = CompType.Inductor ∧
      index_of seriesNetlist sampleInductor.nodes.1 = Except.ok 0 ∧
      index_of seriesNetlist sampleInductor.nodes.2 = Except.ok 1 ∧
      (0 : Int) < ((3 : Nat) : Int) ∧ (1 : Int) < ((3 : Nat) : Int) ∧
      (0 : Int) ≤ 2 ∧ (2 : Int) < ((3 : Nat) : Int)) ∧
    stamp_component sampleInductor (zeroMNA 3) seriesNetlist 2 = Except.ok
      ⟨{ G := (zeroMNA 3).G
              + (if (0 : Int) ≤ 0 then
                  entryAt 3 0 2 1 + entryAt 3 2 0 1 else 0)
              - (if (0 : Int) ≤ 1 then
                  entryAt 3 1 2 1 + entryAt 3 2 1 1 else 0)
         C := (zeroMNA 3).C + entryAt 3 2 2 sampleInductor.value
         b := (zeroMNA 3).b }, 2 + 1, some 2⟩ :=
  ⟨⟨rfl, rfl, rfl, by decide, by decide, by decide, by decide⟩,
    stamp_component_inductor sampleInductor (zeroMNA 3) seriesNetlist 2 0 1 rfl rfl rfl
      (by decide) (by decide) (by decide) (by decide)⟩

/-- C7: for every `VoltageSource` of value `V` whose terminals map to the indices `n1`,
`n2` (`-1` for ground; both below the dimension), stamped with the cursor at a position `e`
of the system, `stamp_component` completes, claims the extra index `e` and advances the
cursor to `e + 1`; it writes into `G` the coupling coefficients of an inductor (adds 1 to
`G[n1,e]` and `G[e,n1]` if `0 ≤ n1`, subtracts 1 from `G[n2,e]` and `G[e,n2]` if `0 ≤ n2`)
and adds `V` to `b[e]`; `C` and every other coefficient of `b` are unchanged. -/
theorem stamp_component_voltage_source {n : Nat} (component : Component) (mna : MNA n) (netlis : NetList)
    (nextExtraIndex n1 n2 : Int)
    (ht : component.type = CompType.VoltageSource)
    (h1 : index_of netlis component.nodes.1 = Except.ok n1)
    (h2 : index_of netlis component.nodes.2 = Except.ok n2)
    (hb1 : n1 < (n : Int)) (hb2 : n2 < (n : Int))
    (he0 : 0 ≤ nextExtraIndex) (he1 : nextExtraIndex < (n : Int)) :
    stamp_component component mna netlis nextExtraIndex = Except.ok
      ⟨{ G := mna.G
              + (if 0 ≤ n1 then
                  entryAt n n1 nextExtraIndex 1 + entryAt n nextExtraIndex n1 1 else 0)
              - (if 0 ≤ n2 then
                  entryAt n n2 nextExtraIndex 1 + entryAt n nextExtraIndex n2 1 else 0)
         C := mna.C
         b := mna.b + vecEntryAt n nextExtraIndex component.value }, nextExtraIndex + 1, some nextExtraIndex⟩ :=
  stamp_source component mna netlis nextExtraIndex n1 n2 ht h1 h2 hb1 hb2 he0 he1

/-- C7 at a component of the series circuit, on the zero system of dimension 3. -/
theorem stamp_component_voltage_source_witness :
    (sampleSource.type = CompType.VoltageSource ∧
      index_of seriesNetlist sampleSource.nodes.1 = Except.ok 0 ∧
      index_of seriesNetlist sampleSource.nodes.2 = Except.ok (-1) ∧
      (0 : Int) < ((3 : Nat) : Int) ∧ ((-1) : Int) < ((3 : Nat) : Int) ∧
      (0 : Int) ≤ 2 ∧ (2 : Int) < ((3 : Nat) : Int)) ∧
    stamp_component sampleSource (zeroMNA 3) seriesNetlist 2 = Except.ok
      ⟨{ G := (zeroMNA 3).G
              + (if (0 : Int) ≤ 0 then
                  entryAt 3 0 2 1 + entryAt 3 2 0 1 else 0)
              - (if (0 : Int) ≤ (-1) then
                  entryAt 3 (-1) 2 1 + entryAt 3 2 (-1) 1 else 0)
         C := (zeroMNA 3).C
         b := (zeroMNA 3).b + vecEntryAt 3 2 sampleSource.value }, 2 + 1, some 2⟩ :=
  ⟨⟨rfl, rfl, rfl, by decide, by decide, by decide, by decide⟩,
    stamp_component_voltage_source sampleSource (zeroMNA 3) seriesNetlist 2 0 (-1) rfl rfl rfl
      (by decide) (by decide) (by decide) (by decide)⟩

/-! ## Claims on the integrator -/

/-- C8: for every system `(G, C, b)` of the dimension of an indexed circuit model (in
particular the assembled one), every `dt > 0` and every step count `N ≥ 0` such that
`M = G + C/dt` is invertible, and every solver that is exact on invertible matrices,
`simulate_backward_euler` returns a trajectory `x` with `M * x[k+1] = b + (C/dt) * x[k]` for
every `k` with `0 ≤ k < N`, the same `M` at every step. -/
theorem simulate_backward_euler_recurrence (solve : Solver) (hsolve : SolvesExactly solve)
    (netlist nl : NetList) (h0 : 0 ≤ netlist.max_nodes)
    (hset : setNodeToIndex netlist = Except.ok nl) (mna : MNA nl.total_unknows.toNat)
    (simconf : SimConf) (_hdt : 0 < simconf.dt) (hsteps : 0 ≤ simconf.steps)
    (hinv : IsUnit (mna.G + divScalar mna.C simconf.dt).det) :
    ∃ history, simulate_backward_euler solve nl mna simconf = Except.ok history ∧
      ∀ k : Nat, (k : Int) < simconf.steps →
        ∃ xk xk1, history[k]? = some xk ∧ history[k + 1]? = some xk1 ∧
          (mna.G + divScalar mna.C simconf.dt).mulVec xk1 =
            mna.b + (divScalar mna.C simconf.dt).mulVec xk := by
  refine ⟨_, simulate_ok solve netlist nl h0 hset mna simconf hsteps, ?_⟩
  intro k hk
  obtain ⟨_, _, hrec⟩ := eulerLoop_spec solve (mna.G + divScalar mna.C simconf.dt) mna
    simconf.dt simconf.steps.toNat 0 [0] rfl
  obtain ⟨xk, xk1, hxk, hxk1, hstep⟩ := hrec k (by simp) (by simp; omega)
  refine ⟨xk, xk1, hxk, hxk1, ?_⟩
  rw [hstep]
  exact hsolve _ _ _ hinv

/-- C8 at the series circuit, two steps of 1 ms, with Cramer's rule as the solver. -/
theorem simulate_backward_euler_recurrence_witness :
    (SolvesExactly cramerSolve ∧ (0 : Int) ≤ seriesCircuit.max_nodes ∧
      setNodeToIndex seriesCircuit = Except.ok seriesNetlist ∧
      0 < sampleConf.dt ∧ 0 ≤ sampleConf.steps ∧
      IsUnit (seriesMNA.G + divScalar seriesMNA.C sampleConf.dt).det) ∧
    ∃ history, simulate_backward_euler cramerSolve seriesNetlist seriesMNA sampleConf
        = Except.ok history ∧
      ∀ k : Nat, (k : Int) < sampleConf.steps →
        ∃ xk xk1, history[k]? = some xk ∧ history[k + 1]? = some xk1 ∧
          (seriesMNA.G + divScalar seriesMNA.C sampleConf.dt).mulVec xk1 =
            seriesMNA.b + (divScalar seriesMNA.C sampleConf.dt).mulVec xk :=
  have hdt : 0 < sampleConf.dt := by norm_num [sampleConf]
  have hdet : IsUnit (seriesMNA.G + divScalar seriesMNA.C sampleConf.dt).det := by
    rw [show sampleConf.dt = 1 / 1000 from rfl, series_iteration_det]
    exact isUnit_iff_ne_zero.mpr (by norm_num)
  ⟨⟨cramerSolve_exact, by decide, rfl, hdt, by decide, hdet⟩,
    simulate_backward_euler_recurrence cramerSolve cramerSolve_exact seriesCircuit
      seriesNetlist (by decide) rfl seriesMNA sampleConf hdt (by decide) hdet⟩

/-- C9: for every system of the dimension of an indexed circuit model (in particular the
assembled one), every solver and every step count `N ≥ 0`, `simulate_backward_euler` returns
a trajectory of exactly `N + 1` state vectors, each of dimension `total_unknows`, whose entry
0 is the zero vector; with `steps = 0` the trajectory is the zero vector alone. -/
theorem simulate_backward_euler_length (solve : Solver) (netlist nl : NetList)
    (h0 : 0 ≤ netlist.max_nodes) (hset : setNodeToIndex netlist = Except.ok nl)
    (mna : MNA nl.total_unknows.toNat) (simconf : SimConf) (hsteps : 0 ≤ simconf.steps) :
    ∃ history, simulate_backward_euler solve nl mna simconf = Except.ok history ∧
      (history.length : Int) = simconf.steps + 1 ∧
      history[0]? = some 0 ∧
      (∀ v ∈ render history, (v.length : Int) = nl.total_unknows) ∧
      (simconf.steps = 0 → render history = [List.replicate nl.total_unknows.toNat 0]) := by
  refine ⟨_, simulate_ok solve netlist nl h0 hset mna simconf hsteps, ?_, ?_, ?_, ?_⟩
  · obtain ⟨hlen, _, _⟩ := eulerLoop_spec solve (mna.G + divScalar mna.C simconf.dt) mna
      simconf.dt simconf.steps.toNat 0 [0] rfl
    rw [hlen]
    simp only [List.length_singleton]
    omega
  · obtain ⟨_, hpre, _⟩ := eulerLoop_spec solve (mna.G + divScalar mna.C simconf.dt) mna
      simconf.dt simconf.steps.toNat 0 [0] rfl
    rw [hpre 0 (by simp)]
    rfl
  · intro v hv
    simp only [render, List.mem_map] at hv
    obtain ⟨x, _, rfl⟩ := hv
    rw [List.length_ofFn]
    have htot : 0 ≤ nl.total_unknows := by
      rw [setNodeToIndex_ok netlist h0] at hset
      injection hset with hnl
      subst hnl
      simp only
      omega
    omega
  · intro hz
    rw [hz]
    simp only [Int.toNat_zero, eulerLoop, render, List.map_cons, List.map_nil]
    congr 1
    exact List.ofFn_const _ 0

/-- C9 at the series circuit with two steps. -/
theorem simulate_backward_euler_length_witness :
    ((0 : Int) ≤ seriesCircuit.max_nodes ∧
      setNodeToIndex seriesCircuit = Except.ok seriesNetlist ∧ 0 ≤ sampleConf.steps) ∧
    ∃ history, simulate_backward_euler cramerSolve seriesNetlist seriesMNA sampleConf
        = Except.ok history ∧
      (history.length : Int) = sampleConf.steps + 1 ∧
      history[0]? = some 0 ∧
      (∀ v ∈ render history, (v.length : Int) = seriesNetlist.total_unknows) ∧
      (sampleConf.steps = 0 →
        render history = [List.replicate seriesNetlist.total_unknows.toNat 0]) :=
  ⟨⟨by decide, rfl, by decide⟩,
    simulate_backward_euler_length cramerSolve seriesCircuit seriesNetlist (by decide) rfl
      seriesMNA sampleConf (by decide)⟩

/-- C10: for the series circuit (5 V source between terminal 1 and ground, 1000 Ω between
terminals 1 and 2, 1 µF between terminal 2 and ground) with `dt` = 1 ms: `setNodeToIndex`
gives `total_unknows = 3` (2 node unknowns and 1 extra), `defineMNA` assembles the system
`seriesMNA`, the iteration matrix `M = G + C/dt` is invertible, and with any solver that is
exact on invertible matrices and any step count `N ≥ 1` the trajectory starts with
`x0 = [0, 0, 0]` and `x1 = [5, 5/2, -1/400]`, which is the unique solution of `M * x = b`. -/
theorem series_first_step (solve : Solver) (hsolve : SolvesExactly solve) (steps : Int)
    (plot : Bool) (hsteps : 1 ≤ steps) :
    setNodeToIndex seriesCircuit = Except.ok seriesNetlist ∧
    seriesNetlist.total_unknows = 3 ∧ seriesNetlist.volt_unknows = 2 ∧
    seriesNetlist.extra_unknows = 1 ∧
    defineMNA seriesNetlist = Except.ok seriesMNA ∧
    IsUnit (seriesMNA.G + divScalar seriesMNA.C (1 / 1000)).det ∧
    (∀ x : Fin 3 → ℚ,
      (seriesMNA.G + divScalar seriesMNA.C (1 / 1000)).mulVec x = seriesMNA.b ↔
        x = ![5, 5 / 2, -(1 / 400)]) ∧
    ∃ history,
      simulate_backward_euler solve seriesNetlist seriesMNA ⟨1 / 1000, steps, plot⟩
        = Except.ok history ∧
      (render history)[0]? = some ([0, 0, 0] : List ℚ) ∧
      (render history)[1]? = some ([5, 5 / 2, -(1 / 400)] : List ℚ) := by
  have hdet : IsUnit (seriesMNA.G + divScalar seriesMNA.C (1 / 1000)).det := by
    rw [series_iteration_det]
    exact isUnit_iff_ne_zero.mpr (by norm_num)
  have hsol : (seriesMNA.G + divScalar seriesMNA.C (1 / 1000)).mulVec
      ![5, 5 / 2, -(1 / 400)] = seriesMNA.b := by
    funext i
    fin_cases i <;>
      simp [Matrix.mulVec, Matrix.dotProduct, Fin.sum_univ_three, seriesMNA, divScalar,
        Matrix.vecHead, Matrix.vecTail] <;> norm_num
  refine ⟨rfl, rfl, rfl, rfl, series_defineMNA, hdet,
    fun x => ⟨series_unique x, fun hx => hx ▸ hsol⟩, ?_⟩
  refine ⟨_, simulate_ok solve seriesCircuit seriesNetlist (by decide) rfl seriesMNA
    ⟨1 / 1000, steps, plot⟩ (by show (0 : Int) ≤ steps; omega), ?_, ?_⟩
  · obtain ⟨_, hpre, _⟩ := eulerLoop_spec solve
      (seriesMNA.G + divScalar seriesMNA.C (1 / 1000)) seriesMNA (1 / 1000) steps.toNat 0 [0] rfl
    have h := hpre 0 (by simp)
    dsimp only [render]
    rw [List.getElem?_map]
    refine (congrArg (Option.map List.ofFn) h).trans ?_
    simp [List.ofFn_succ]
  · obtain ⟨_, hpre, hrec⟩ := eulerLoop_spec solve
      (seriesMNA.G + divScalar seriesMNA.C (1 / 1000)) seriesMNA (1 / 1000) steps.toNat 0 [0] rfl
    obtain ⟨xk, xk1, hxk, hxk1, hstep⟩ := hrec 0 (by simp) (by simp; omega)
    have h0 := hpre 0 (by simp)
    rw [h0] at hxk
    simp only [List.getElem?_cons_zero, Option.some.injEq] at hxk
    subst hxk
    have hM := hsolve 3 _ (seriesMNA.b + (divScalar seriesMNA.C (1 / 1000)).mulVec 0) hdet
    rw [← hstep] at hM
    simp only [Matrix.mulVec_zero, add_zero] at hM
    have hx := series_unique xk1 hM
    have hxk1b : (eulerLoop solve (seriesMNA.G + divScalar seriesMNA.C (1 / 1000)) seriesMNA
        (1 / 1000) steps.toNat 0 [0])[1]? = some xk1 := hxk1
    dsimp only [render]
    rw [List.getElem?_map]
    refine (congrArg (Option.map List.ofFn) hxk1b).trans ?_
    rw [hx]
    simp [List.ofFn_succ]

/-- C10 with Cramer's rule as the solver and two steps. -/
theorem series_first_step_witness :
    (SolvesExactly cramerSolve ∧ (1 : Int) ≤ 2) ∧
    setNodeToIndex seriesCircuit = Except.ok seriesNetlist ∧
    seriesNetlist.total_unknows = 3 ∧ seriesNetlist.volt_unknows = 2 ∧
    seriesNetlist.extra_unknows = 1 ∧
    defineMNA seriesNetlist = Except.ok seriesMNA ∧
    IsUnit (seriesMNA.G + divScalar seriesMNA.C (1 / 1000)).det ∧
    (∀ x : Fin 3 → ℚ,
      (seriesMNA.G + divScalar seriesMNA.C (1 / 1000)).mulVec x = seriesMNA.b ↔
        x = ![5, 5 / 2, -(1 / 400)]) ∧
    ∃ history,
      simulate_backward_euler cramerSolve seriesNetlist seriesMNA ⟨1 / 1000, 2, false⟩
        = Except.ok history ∧
      (render history)[0]? = some ([0, 0, 0] : List ℚ) ∧
      (render history)[1]? = some ([5, 5 / 2, -(1 / 400)] : List ℚ) :=
  ⟨⟨cramerSolve_exact, by decide⟩,
    series_first_step cramerSolve cramerSolve_exact 2 false (by decide)⟩

/-! ## Claims on the assembled system -/

/-- C11: for every circuit model that contains only `Resistor` components (any number, terminals
within `0 .. max_nodes`, non-zero values), `defineMNA` completes and the conductance matrix it
returns is symmetric: `G[i,j] = G[j,i]` for all `i`, `j`. -/
theorem defineMNA_resistors_symmetric (netlist nl : NetList) (h0 : 0 ≤ netlist.max_nodes)
    (hwf : TerminalsInRange netlist)
    (_honly : ∀ c ∈ netlist.components, c.type = CompType.Resistor ∧ c.value ≠ 0)
    (hset : setNodeToIndex netlist = Except.ok nl) :
    ∃ mna, defineMNA nl = Except.ok mna ∧ ∀ i j, mna.G i j = mna.G j i := by
  obtain ⟨mna, hm, hG, _, _⟩ := defineMNA_closed netlist nl h0 hwf hset
  refine ⟨mna, hm, ?_⟩
  intro i j
  rw [hG]
  exact sumG_symm _ _ _ i j

/-- C11 at the single-resistor circuit with `R` = 1000 Ω. -/
theorem defineMNA_resistors_symmetric_witness :
    ((0 : Int) ≤ (resistorCircuit 1000 "R1").max_nodes ∧
      TerminalsInRange (resistorCircuit 1000 "R1") ∧
      (∀ c ∈ (resistorCircuit 1000 "R1").components,
        c.type = CompType.Resistor ∧ c.value ≠ 0) ∧
      setNodeToIndex (resistorCircuit 1000 "R1") = Except.ok (resistorNetlist 1000 "R1")) ∧
    ∃ mna, defineMNA (resistorNetlist 1000 "R1") = Except.ok mna ∧
      ∀ i j, mna.G i j = mna.G j i :=
  have hwf : TerminalsInRange (resistorCircuit 1000 "R1") := by
    intro c hc
    simp only [resistorCircuit, circuitOf, List.mem_singleton] at hc
    subst hc
    decide
  have honly : ∀ c ∈ (resistorCircuit 1000 "R1").components,
      c.type = CompType.Resistor ∧ c.value ≠ 0 := by
    intro c hc
    simp only [resistorCircuit, circuitOf, List.mem_singleton] at hc
    subst hc
    exact ⟨rfl, by norm_num⟩
  ⟨⟨by decide, hwf, honly, rfl⟩,
    defineMNA_resistors_symmetric (resistorCircuit 1000 "R1") (resistorNetlist 1000 "R1")
      (by decide) hwf honly rfl⟩

/-- C12: for every `R > 0`, the circuit made of a single `Resistor` of value `R` between the
non-ground terminals 1 and 2 (`max_nodes = 2`) is indexed with `total_unknows = 2` (no extra
unknown) and assembles to `G = [[1/R, -1/R], [-1/R, 1/R]]`, with `C` and `b` all zero. -/
theorem single_resistor_assembly (R : ℚ) (name : String) (_hR : 0 < R) :
    setNodeToIndex (resistorCircuit R name) = Except.ok (resistorNetlist R name) ∧
    (resistorNetlist R name).total_unknows = 2 ∧
    (resistorNetlist R name).extra_unknows = 0 ∧
    defineMNA (resistorNetlist R name) = Except.ok
      ⟨!![1 / R, -(1 / R); -(1 / R), 1 / R], 0, 0⟩ :=
  ⟨rfl, rfl, rfl, resistor_defineMNA R name⟩

/-- C12 at `R` = 1000 Ω. -/
theorem single_resistor_assembly_witness :
    (0 : ℚ) < 1000 ∧
    setNodeToIndex (resistorCircuit 1000 "R1") = Except.ok (resistorNetlist 1000 "R1") ∧
    (resistorNetlist 1000 "R1").total_unknows = 2 ∧
    (resistorNetlist 1000 "R1").extra_unknows = 0 ∧
    defineMNA (resistorNetlist 1000 "R1") = Except.ok
      ⟨!![1 / 1000, -(1 / 1000); -(1 / 1000), 1 / 1000], 0, 0⟩ :=
  ⟨by norm_num, single_resistor_assembly 1000 "R1" (by norm_num)⟩

/-- C13: the circuit made of a single `Resistor` of 1000 Ω between terminal 1 and ground
(`max_nodes = 1`) is indexed with `total_unknows = 1`, ground mapping to `-1`, and assembles
to the 1×1 conductance matrix `G = [[1/1000]]` (with `C` and `b` zero): ground has no row or
column and no off-diagonal coefficient is written. -/
theorem grounded_resistor_assembly :
    setNodeToIndex groundedCircuit = Except.ok groundedNetlist ∧
    groundedNetlist.total_unknows = 1 ∧
    index_of groundedNetlist 0 = Except.ok (-1) ∧
    defineMNA groundedNetlist = Except.ok ⟨!![1 / 1000], 0, 0⟩ :=
  ⟨rfl, rfl, rfl, grounded_defineMNA⟩

/-- C14: stamps are additive.  For a fixed `max_nodes = m ≥ 0` and two lists `l1`, `l2` of
`Resistor`/`Capacitor` components over the terminals `0 .. m`, the circuits with components
`l1`, `l2` and `l1 ++ l2` are all indexed with `total_unknows = m` and assemble; the `G` and
`C` assembled from `l1 ++ l2` equal, coefficient by coefficient, the sums of those assembled
from `l1` and from `l2`; any reordering of `l1 ++ l2` assembles to the same `G` and `C`; and
resistors `R1 .. Rk` all between terminal 1 and ground give `G[0,0] = 1/R1 + ... + 1/Rk`. -/
theorem stamps_additive (m : Int) (h0 : 0 ≤ m) (l1 l2 : List Component)
    (hrc : ∀ c ∈ l1 ++ l2, (c.type = CompType.Resistor ∨ c.type = CompType.Capacitor) ∧
      0 ≤ c.nodes.1 ∧ c.nodes.1 ≤ m ∧ 0 ≤ c.nodes.2 ∧ c.nodes.2 ≤ m) :
    (∃ nla ma nlb mb nlab mab,
      setNodeToIndex (circuitOf m l1) = Except.ok nla ∧ defineMNA nla = Except.ok ma ∧
      setNodeToIndex (circuitOf m l2) = Except.ok nlb ∧ defineMNA nlb = Except.ok mb ∧
      setNodeToIndex (circuitOf m (l1 ++ l2)) = Except.ok nlab ∧
      defineMNA nlab = Except.ok mab ∧
      nla.total_unknows = m ∧ nlb.total_unknows = m ∧ nlab.total_unknows = m ∧
      (∀ i j : Nat, coeffAt mab.G i j = coeffAt ma.G i j + coeffAt mb.G i j) ∧
      (∀ i j : Nat, coeffAt mab.C i j = coeffAt ma.C i j + coeffAt mb.C i j) ∧
      ∀ l : List Component, l.Perm (l1 ++ l2) →
        ∃ nl mna, setNodeToIndex (circuitOf m l) = Except.ok nl ∧
          defineMNA nl = Except.ok mna ∧ nl.total_unknows = m ∧
          ∀ i j : Nat, coeffAt mna.G i j = coeffAt mab.G i j ∧
            coeffAt mna.C i j = coeffAt mab.C i j) ∧
    (1 ≤ m → ∀ Rs : List ℚ,
      ∃ nl mna,
        setNodeToIndex (circuitOf m
          (Rs.map fun R => (⟨CompType.Resistor, (1, 0), R, "R"⟩ : Component))) = Except.ok nl ∧
        defineMNA nl = Except.ok mna ∧
        coeffAt mna.G 0 0 = (Rs.map fun R => 1 / R).sum) := by
  constructor
  · obtain ⟨nla, ma, hsa, hda, hta, hGa, hCa⟩ := rc_closed m h0 l1
      (fun c hc => hrc c (List.mem_append_left l2 hc))
    obtain ⟨nlb, mb, hsb, hdb, htb, hGb, hCb⟩ := rc_closed m h0 l2
      (fun c hc => hrc c (List.mem_append_right l1 hc))
    obtain ⟨nlab, mab, hsab, hdab, htab, hGab, hCab⟩ := rc_closed m h0 (l1 ++ l2) hrc
    refine ⟨nla, ma, nlb, mb, nlab, mab, hsa, hda, hsb, hdb, hsab, hdab, hta, htb, htab,
      ?_, ?_, ?_⟩
    · intro i j
      rw [hGab, hGa, hGb, List.map_append, List.sum_append]
    · intro i j
      rw [hCab, hCa, hCb, List.map_append, List.sum_append]
    · intro l hl
      obtain ⟨nl, mna, hs, hd, ht, hG, hC⟩ := rc_closed m h0 l
        (fun c hc => hrc c (hl.mem_iff.mp hc))
      refine ⟨nl, mna, hs, hd, ht, ?_⟩
      intro i j
      rw [hG, hC, hGab, hCab]
      exact ⟨(hl.map _).sum_eq, (hl.map _).sum_eq⟩
  · intro h1 Rs
    obtain ⟨nl, mna, hs, hd, _, hG, _⟩ := rc_closed m h0
      (Rs.map fun R => (⟨CompType.Resistor, (1, 0), R, "R"⟩ : Component))
      (by
        intro c hc
        simp only [List.mem_map] at hc
        obtain ⟨R, _, rfl⟩ := hc
        exact ⟨Or.inl rfl, by simp; omega⟩)
    refine ⟨nl, mna, hs, hd, ?_⟩
    rw [hG, List.map_map]
    congr 1
    apply List.map_congr_left
    intro R _
    have hm : 0 < m.toNat := by omega
    simp [Function.comp, coeffAt, stampG, entryAt, inv, hm]

/-- C14 with `max_nodes = 2`, the resistor and the capacitor of the series circuit. -/
theorem stamps_additive_witness :
    ((0 : Int) ≤ 2 ∧
      ∀ c ∈ [sampleResistor] ++ [sampleCapacitor],
        (c.type = CompType.Resistor ∨ c.type = CompType.Capacitor) ∧
        0 ≤ c.nodes.1 ∧ c.nodes.1 ≤ 2 ∧ 0 ≤ c.nodes.2 ∧ c.nodes.2 ≤ 2) ∧
    (∃ nla ma nlb mb nlab mab,
      setNodeToIndex (circuitOf 2 [sampleResistor]) = Except.ok nla ∧
      defineMNA nla = Except.ok ma ∧
      setNodeToIndex (circuitOf 2 [sampleCapacitor]) = Except.ok nlb ∧
      defineMNA nlb = Except.ok mb ∧
      setNodeToIndex (circuitOf 2 ([sampleResistor] ++ [sampleCapacitor])) = Except.ok nlab ∧
      defineMNA nlab = Except.ok mab ∧
      nla.total_unknows = 2 ∧ nlb.total_unknows = 2 ∧ nlab.total_unknows = 2 ∧
      (∀ i j : Nat, coeffAt mab.G i j = coeffAt ma.G i j + coeffAt mb.G i j) ∧
      (∀ i j : Nat, coeffAt mab.C i j = coeffAt ma.C i j + coeffAt mb.C i j) ∧
      ∀ l : List Component, l.Perm ([sampleResistor] ++ [sampleCapacitor]) →
        ∃ nl mna, setNodeToIndex (circuitOf 2 l) = Except.ok nl ∧
          defineMNA nl = Except.ok mna ∧ nl.total_unknows = 2 ∧
          ∀ i j : Nat, coeffAt mna.G i j = coeffAt mab.G i j ∧
            coeffAt mna.C i j = coeffAt mab.C i j) ∧
    ((1 : Int) ≤ 2 → ∀ Rs : List ℚ,
      ∃ nl mna,
        setNodeToIndex (circuitOf 2
          (Rs.map fun R => (⟨CompType.Resistor, (1, 0), R, "R"⟩ : Component))) = Except.ok nl ∧
        defineMNA nl = Except.ok mna ∧
        coeffAt mna.G 0 0 = (Rs.map fun R => 1 / R).sum) :=
  have hrc : ∀ c ∈ [sampleResistor] ++ [sampleCapacitor],
      (c.type = CompType.Resistor ∨ c.type = CompType.Capacitor) ∧
      0 ≤ c.nodes.1 ∧ c.nodes.1 ≤ 2 ∧ 0 ≤ c.nodes.2 ∧ c.nodes.2 ≤ 2 := by
    intro c hc
    simp only [List.singleton_append, List.mem_cons, List.mem_singleton, List.not_mem_nil,
      or_false] at hc
    rcases hc with rfl | rfl <;> decide
  ⟨⟨by decide, hrc⟩, stamps_additive 2 (by decide) [sampleResistor] [sampleCapacitor] hrc⟩

/-! ## Claims on failures -/

/-- C15, counterexample: the circuit whose only component is a `VoltageSource` with both
terminals at ground assembles to `G = [[0]]`, `C = [[0]]`, `b = [5]`; its iteration matrix is
singular (determinant 0), and yet `simulate_backward_euler` with one step does not fail: it
returns a trajectory of two entries, the second one taken from the solver. -/
theorem singular_system_not_rejected :
    setNodeToIndex floatingCircuit = Except.ok floatingNetlist ∧
    defineMNA floatingNetlist = Except.ok floatingMNA ∧
    (floatingMNA.G + divScalar floatingMNA.C (1 / 1000)).det = 0 ∧
    ∃ history,
      simulate_backward_euler cramerSolve floatingNetlist floatingMNA ⟨1 / 1000, 1, false⟩
        = Except.ok history ∧
      history.length = 2 := by
  refine ⟨rfl, floating_defineMNA, ?_, ?_⟩
  · rw [Matrix.det_fin_one]
    simp [floatingMNA, divScalar]
  · refine ⟨_, simulate_ok cramerSolve floatingCircuit floatingNetlist (by decide) rfl
      floatingMNA ⟨1 / 1000, 1, false⟩ (by decide), ?_⟩
    exact (eulerLoop_spec cramerSolve _ floatingMNA _ 1 0 [0] rfl).1

/-- C15, amended: `simulate_backward_euler` has no singularity check.  For every system of
the dimension of an indexed circuit model, every solver, every `dt` and every step count
`N ≥ 0`, whether or not `M = G + C/dt` is invertible, it completes with `N + 1` states, and
state `k + 1` is whatever the solver returned for `M` and `b + (C/dt) * x[k]`. -/
theorem simulate_backward_euler_no_singular_check (solve : Solver) (netlist nl : NetList)
    (h0 : 0 ≤ netlist.max_nodes) (hset : setNodeToIndex netlist = Except.ok nl)
    (mna : MNA nl.total_unknows.toNat) (simconf : SimConf) (hsteps : 0 ≤ simconf.steps) :
    ∃ history, simulate_backward_euler solve nl mna simconf = Except.ok history ∧
      (history.length : Int) = simconf.steps + 1 ∧
      ∀ k : Nat, (k : Int) < simconf.steps →
        ∃ xk xk1, history[k]? = some xk ∧ history[k + 1]? = some xk1 ∧
          xk1 = solve nl.total_unknows.toNat (mna.G + divScalar mna.C simconf.dt)
            (mna.b + (divScalar mna.C simconf.dt).mulVec xk) := by
  obtain ⟨hlen, _, hrec⟩ := eulerLoop_spec solve (mna.G + divScalar mna.C simconf.dt) mna
    simconf.dt simconf.steps.toNat 0 [0] rfl
  refine ⟨_, simulate_ok solve netlist nl h0 hset mna simconf hsteps, ?_, ?_⟩
  · rw [hlen]
    simp only [List.length_singleton]
    omega
  · intro k hk
    exact hrec k (by simp) (by simp; omega)

/-- C15, amended, at the degenerate circuit with one step. -/
theorem simulate_backward_euler_no_singular_check_witness :
    ((0 : Int) ≤ floatingCircuit.max_nodes ∧
      setNodeToIndex floatingCircuit = Except.ok floatingNetlist ∧
      (0 : Int) ≤ (⟨1 / 1000, 1, false⟩ : SimConf).steps) ∧
    ∃ history,
      simulate_backward_euler cramerSolve floatingNetlist floatingMNA ⟨1 / 1000, 1, false⟩
        = Except.ok history ∧
      (history.length : Int) = (⟨1 / 1000, 1, false⟩ : SimConf).steps + 1 ∧
      ∀ k : Nat, (k : Int) < (⟨1 / 1000, 1, false⟩ : SimConf).steps →
        ∃ xk xk1, history[k]? = some xk ∧ history[k + 1]? = some xk1 ∧
          xk1 = cramerSolve floatingNetlist.total_unknows.toNat
            (floatingMNA.G + divScalar floatingMNA.C (⟨1 / 1000, 1, false⟩ : SimConf).dt)
            (floatingMNA.b +
              (divScalar floatingMNA.C (⟨1 / 1000, 1, false⟩ : SimConf).dt).mulVec xk) :=
  ⟨⟨by decide, rfl, by decide⟩,
    simulate_backward_euler_no_singular_check cramerSolve floatingCircuit floatingNetlist
      (by decide) rfl floatingMNA ⟨1 / 1000, 1, false⟩ (by decide)⟩

/-- C16, counterexample: a `Resistor` of value `-1000` (which is `≤ 0`) between terminals 1
and 2 of the series netlist is stamped without any failure, and the stamp modifies `G`:
`G[0,0]` goes from `0` to `-1/1000`. -/
theorem negative_resistor_is_stamped :
    negativeResistor.type = CompType.Resistor ∧ negativeResistor.value ≤ 0 ∧
    ∃ s, stamp_component negativeResistor (zeroMNA 3) seriesNetlist 3 = Except.ok s ∧
      s.mna.G 0 0 = -(1 / 1000) ∧ s.mna.G 0 0 ≠ (zeroMNA 3).G 0 0 := by
  have i10 : index_of seriesNetlist negativeResistor.nodes.1 = Except.ok 0 := rfl
  have i21 : index_of seriesNetlist negativeResistor.nodes.2 = Except.ok 1 := rfl
  refine ⟨rfl, by norm_num [negativeResistor], _,
    stamp_resistor negativeResistor (zeroMNA 3) seriesNetlist 3 0 1 rfl i10 i21
      (by decide) (by decide), ?_, ?_⟩
  · simp [entryAt, zeroMNA, inv, negativeResistor]
    norm_num
  · simp [entryAt, zeroMNA, inv, negativeResistor]

/-- C16, amended: stamping a `Resistor` never fails on account of its value.  For every
value `R ≠ 0`, negative values included, with both terminals mapped below the dimension of
the system, `stamp_component` completes, leaves `C`, `b` and the cursor unchanged, and stamps
`g = 1/R`: for a valid index `n1` different from `n2` the coefficient `G[n1,n1]` is increased
by `1/R`, hence modified. -/
theorem stamp_component_resistor_unchecked {n : Nat} (component : Component) (mna : MNA n)
    (netlis : NetList) (nextExtraIndex n1 n2 : Int)
    (ht : component.type = CompType.Resistor) (hR : component.value ≠ 0)
    (h1 : index_of netlis component.nodes.1 = Except.ok n1)
    (h2 : index_of netlis component.nodes.2 = Except.ok n2)
    (hb1 : n1 < (n : Int)) (hb2 : n2 < (n : Int)) :
    ∃ s, stamp_component component mna netlis nextExtraIndex = Except.ok s ∧
      s.nextExtraIndex = nextExtraIndex ∧ s.mna.C = mna.C ∧ s.mna.b = mna.b ∧
      (0 ≤ n1 → n1 ≠ n2 →
        coeffAt s.mna.G n1.toNat n1.toNat = coeffAt mna.G n1.toNat n1.toNat + 1 / component.value ∧
        coeffAt s.mna.G n1.toNat n1.toNat ≠ coeffAt mna.G n1.toNat n1.toNat) := by
  refine ⟨_, stamp_resistor component mna netlis nextExtraIndex n1 n2 ht h1 h2 hb1 hb2,
    rfl, rfl, rfl, ?_⟩
  intro hn1 hne
  have hlt : n1.toNat < n ∧ n1.toNat < n := by omega
  have hcast : ((n1.toNat : Nat) : Int) = n1 := by omega
  have hne2 : ¬ n1 = n2 := hne
  have hne3 : ¬ n2 = n1 := fun h => hne h.symm
  have hval : coeffAt (mna.G
      + (if 0 ≤ n1 then entryAt n n1 n1 (inv component.value) else 0)
      + (if 0 ≤ n2 then entryAt n n2 n2 (inv component.value) else 0)
      - (if 0 ≤ n1 ∧ 0 ≤ n2 then
          entryAt n n1 n2 (inv component.value) + entryAt n n2 n1 (inv component.value)
        else 0)) n1.toNat n1.toNat
      = coeffAt mna.G n1.toNat n1.toNat + 1 / component.value := by
    simp only [coeffAt, dif_pos hlt, Matrix.add_apply, Matrix.sub_apply, if_pos hn1]
    by_cases hn2 : 0 ≤ n2 <;>
      simp [hn1, hn2, entryAt, hcast, hne2, hne3, inv]
  refine ⟨hval, ?_⟩
  rw [hval]
  have : (1 : ℚ) / component.value ≠ 0 := one_div_ne_zero hR
  intro h
  exact this (by linarith)

/-- C16, amended, at the resistor of value `-1000`. -/
theorem stamp_component_resistor_unchecked_witness :
    (negativeResistor.type = CompType.Resistor ∧ negativeResistor.value ≠ 0 ∧
      index_of seriesNetlist negativeResistor.nodes.1 = Except.ok 0 ∧
      index_of seriesNetlist negativeResistor.nodes.2 = Except.ok 1 ∧
      (0 : Int) < ((3 : Nat) : Int) ∧ (1 : Int) < ((3 : Nat) : Int)) ∧
    ∃ s, stamp_component negativeResistor (zeroMNA 3) seriesNetlist 3 = Except.ok s ∧
      s.nextExtraIndex = 3 ∧ s.mna.C = (zeroMNA 3).C ∧ s.mna.b = (zeroMNA 3).b ∧
      ((0 : Int) ≤ 0 → (0 : Int) ≠ 1 →
        coeffAt s.mna.G (0 : Int).toNat (0 : Int).toNat =
          coeffAt (zeroMNA 3).G (0 : Int).toNat (0 : Int).toNat + 1 / negativeResistor.value ∧
        coeffAt s.mna.G (0 : Int).toNat (0 : Int).toNat ≠
          coeffAt (zeroMNA 3).G (0 : Int).toNat (0 : Int).toNat) :=
  have hR : negativeResistor.value ≠ 0 := by norm_num [negativeResistor]
  ⟨⟨rfl, hR, rfl, rfl, by decide, by decide⟩,
    stamp_component_resistor_unchecked negativeResistor (zeroMNA 3) seriesNetlist 3 0 1 rfl hR
      rfl rfl (by decide) (by decide)⟩

/-- C17, counterexample: on the series circuit `simulate_backward_euler` does not fail with a
negative time step (`dt` = -1 ms, one step: two states are returned), nor with a zero time
step, nor with the negative step count `steps = -1` (the initial state alone is returned). -/
theorem invalid_config_not_rejected :
    (∃ history,
      simulate_backward_euler cramerSolve seriesNetlist seriesMNA ⟨-(1 / 1000), 1, false⟩
        = Except.ok history ∧ history.length = 2) ∧
    (∃ history,
      simulate_backward_euler cramerSolve seriesNetlist seriesMNA ⟨0, 1, false⟩
        = Except.ok history ∧ history.length = 2) ∧
    simulate_backward_euler cramerSolve seriesNetlist seriesMNA ⟨1 / 1000, -1, false⟩
      = Except.ok [0] := by
  refine ⟨⟨_, simulate_ok cramerSolve seriesCircuit seriesNetlist (by decide) rfl seriesMNA
      ⟨-(1 / 1000), 1, false⟩ (by decide), ?_⟩,
    ⟨_, simulate_ok cramerSolve seriesCircuit seriesNetlist (by decide) rfl seriesMNA
      ⟨0, 1, false⟩ (by decide), ?_⟩, ?_⟩
  · exact (eulerLoop_spec cramerSolve _ seriesMNA _ 1 0 [0] rfl).1
  · exact (eulerLoop_spec cramerSolve _ seriesMNA _ 1 0 [0] rfl).1
  · exact simulate_ok_ge cramerSolve seriesCircuit seriesNetlist (by decide) rfl seriesMNA
      ⟨1 / 1000, -1, false⟩ (by decide)

/-- C17, amended: `simulate_backward_euler` does not validate its configuration.  On a system
of the dimension of an indexed circuit model, for every time step `dt` (positive or not) and
every step count `steps ≥ -1` it completes and returns `max(steps, 0) + 1` states; only for
`steps ≤ -2` does it stop, with `std::length_error` raised by `history.reserve`, before any
step.  In particular it completes for every `dt > 0` and `steps ≥ 0`. -/
theorem simulate_backward_euler_config (solve : Solver) (netlist nl : NetList)
    (h0 : 0 ≤ netlist.max_nodes) (hset : setNodeToIndex netlist = Except.ok nl)
    (mna : MNA nl.total_unknows.toNat) (simconf : SimConf) :
    (-1 ≤ simconf.steps →
      ∃ history, simulate_backward_euler solve nl mna simconf = Except.ok history ∧
        history.length = simconf.steps.toNat + 1) ∧
    (simconf.steps < -1 →
      simulate_backward_euler solve nl mna simconf = Except.error Fault.length_error) := by
  constructor
  · intro hsteps
    refine ⟨_, simulate_ok_ge solve netlist nl h0 hset mna simconf hsteps, ?_⟩
    rw [(eulerLoop_spec solve (mna.G + divScalar mna.C simconf.dt) mna simconf.dt
      simconf.steps.toNat 0 [0] rfl).1]
    simp only [List.length_singleton]
    omega
  · intro hsteps
    exact simulate_length_error solve netlist nl h0 hset mna simconf hsteps

/-- C17, amended, at the series circuit with `dt` = -1 ms and one step. -/
theorem simulate_backward_euler_config_witness :
    ((0 : Int) ≤ seriesCircuit.max_nodes ∧
      setNodeToIndex seriesCircuit = Except.ok seriesNetlist) ∧
    (-1 ≤ (⟨-(1 / 1000), 1, false⟩ : SimConf).steps →
      ∃ history,
        simulate_backward_euler cramerSolve seriesNetlist seriesMNA ⟨-(1 / 1000), 1, false⟩
          = Except.ok history ∧
        history.length = (⟨-(1 / 1000), 1, false⟩ : SimConf).steps.toNat + 1) ∧
    ((⟨-(1 / 1000), 1, false⟩ : SimConf).steps < -1 →
      simulate_backward_euler cramerSolve seriesNetlist seriesMNA ⟨-(1 / 1000), 1, false⟩
        = Except.error Fault.length_error) :=
  ⟨⟨by decide, rfl⟩,
    simulate_backward_euler_config cramerSolve seriesCircuit seriesNetlist (by decide) rfl
      seriesMNA ⟨-(1 / 1000), 1, false⟩⟩

/-! ## Claims on unrecognised components, index safety and rest -/

/-- C18: for every component whose type is `CompType.Unknown` (the tag of everything that is
not a resistor, capacitor, inductor or voltage source), `stamp_component` completes and stamps
nothing: `G`, `C`, `b` and the cursor are returned unchanged and no extra index is claimed;
such a component is not counted by `setNodeToIndex` either, so it does not shift the extra
indices of later components. -/
theorem stamp_component_unknown {n : Nat} (component : Component) (mna : MNA n)
    (netlis : NetList) (nextExtraIndex : Int) (ht : component.type = CompType.Unknown) :
    stamp_component component mna netlis nextExtraIndex =
      Except.ok ⟨mna, nextExtraIndex, none⟩ ∧
    needsExtra component = false :=
  ⟨stamp_unknown component mna netlis nextExtraIndex ht, by simp [needsExtra, ht]⟩

/-- C18 at an unrecognised component, on the assembled series system. -/
theorem stamp_component_unknown_witness :
    unknownComponent.type = CompType.Unknown ∧
    stamp_component unknownComponent seriesMNA seriesNetlist 3 =
      Except.ok ⟨seriesMNA, 3, none⟩ ∧
    needsExtra unknownComponent = false :=
  ⟨rfl, stamp_component_unknown unknownComponent seriesMNA seriesNetlist 3 rfl⟩

/-- C19: index safety of assembly.  For every circuit model whose component terminals all lie
in `0 .. max_nodes` and whose table and counts were produced by `setNodeToIndex`, every
lookup `node_to_idx[node]` made by the stamper is inside the table and yields `node - 1`, an
index in `-1 .. total_unknows - 1`, and `defineMNA` completes: since the embedding reports
every access `G(i,j)`, `C(i,j)`, `b(i)` outside `0 .. total_unknows - 1` as
`Fault.out_of_range`, no such access occurs. -/
theorem assembly_index_safety (netlist nl : NetList) (h0 : 0 ≤ netlist.max_nodes)
    (hwf : TerminalsInRange netlist) (hset : setNodeToIndex netlist = Except.ok nl) :
    (∀ c ∈ nl.components,
      index_of nl c.nodes.1 = Except.ok (c.nodes.1 - 1) ∧
      index_of nl c.nodes.2 = Except.ok (c.nodes.2 - 1) ∧
      -1 ≤ c.nodes.1 - 1 ∧ c.nodes.1 - 1 < nl.total_unknows ∧
      -1 ≤ c.nodes.2 - 1 ∧ c.nodes.2 - 1 < nl.total_unknows) ∧
    (∃ mna, defineMNA nl = Except.ok mna) ∧
    ∃ r, stamp_all nl (zeroMNA nl.total_unknows.toNat) nl.volt_unknows = Except.ok r := by
  obtain ⟨hcomp, _, hvolt, _, htot, hidx⟩ := indexed_fields netlist nl h0 hset
  obtain ⟨mna, hm, _, _, _⟩ := defineMNA_closed netlist nl h0 hwf hset
  refine ⟨?_, ⟨mna, hm⟩, ?_⟩
  · intro c hc
    rw [hcomp] at hc
    obtain ⟨a0, a1, b0, b1⟩ := hwf c hc
    exact ⟨hidx _ a0 a1, hidx _ b0 b1, by omega, by omega, by omega, by omega⟩
  · have hpre : ∀ c ∈ netlist.components,
        index_of nl c.nodes.1 = Except.ok (c.nodes.1 - 1) ∧
        index_of nl c.nodes.2 = Except.ok (c.nodes.2 - 1) ∧
        c.nodes.1 - 1 < ((nl.total_unknows.toNat : Nat) : Int) ∧
        c.nodes.2 - 1 < ((nl.total_unknows.toNat : Nat) : Int) := by
      intro c hc
      obtain ⟨a0, a1, b0, b1⟩ := hwf c hc
      exact ⟨hidx _ a0 a1, hidx _ b0 b1, by omega, by omega⟩
    obtain ⟨r, hr, _⟩ := stampLoop_closed nl netlist.components
      (zeroMNA nl.total_unknows.toNat) netlist.max_nodes hpre h0 (by omega)
    exact ⟨r, by simp only [stamp_all, hcomp, hvolt, hr]⟩

/-- C19 at the series circuit. -/
theorem assembly_index_safety_witness :
    ((0 : Int) ≤ seriesCircuit.max_nodes ∧ TerminalsInRange seriesCircuit ∧
      setNodeToIndex seriesCircuit = Except.ok seriesNetlist) ∧
    (∀ c ∈ seriesNetlist.components,
      index_of seriesNetlist c.nodes.1 = Except.ok (c.nodes.1 - 1) ∧
      index_of seriesNetlist c.nodes.2 = Except.ok (c.nodes.2 - 1) ∧
      -1 ≤ c.nodes.1 - 1 ∧ c.nodes.1 - 1 < seriesNetlist.total_unknows ∧
      -1 ≤ c.nodes.2 - 1 ∧ c.nodes.2 - 1 < seriesNetlist.total_unknows) ∧
    (∃ mna, defineMNA seriesNetlist = Except.ok mna) ∧
    ∃ r, stamp_all seriesNetlist (zeroMNA seriesNetlist.total_unknows.toNat)
      seriesNetlist.volt_unknows = Except.ok r :=
  have hwf : TerminalsInRange seriesCircuit := by
    intro c hc
    simp only [seriesCircuit, List.mem_cons, List.mem_singleton, List.not_mem_nil,
      or_false] at hc
    rcases hc with rfl | rfl | rfl <;> decide
  ⟨⟨by decide, hwf, rfl⟩,
    assembly_index_safety seriesCircuit seriesNetlist (by decide) hwf rfl⟩

/-- C20: for every circuit model (terminals in `0 .. max_nodes`) that contains no
`VoltageSource`, the assembled source vector `b` is zero; therefore, for every `dt > 0` with
`M = G + C/dt` invertible, every step count `N ≥ 0` and every solver that is exact on
invertible matrices, `simulate_backward_euler` completes and every state of the trajectory is
the zero vector. -/
theorem no_source_stays_at_rest (solve : Solver) (hsolve : SolvesExactly solve)
    (netlist nl : NetList) (h0 : 0 ≤ netlist.max_nodes) (hwf : TerminalsInRange netlist)
    (hno : ∀ c ∈ netlist.components, c.type ≠ CompType.VoltageSource)
    (hset : setNodeToIndex netlist = Except.ok nl)
    (mna : MNA nl.total_unknows.toNat) (hmna : defineMNA nl = Except.ok mna)
    (simconf : SimConf) (_hdt : 0 < simconf.dt) (hsteps : 0 ≤ simconf.steps)
    (hinv : IsUnit (mna.G + divScalar mna.C simconf.dt).det) :
    mna.b = 0 ∧
    ∃ history, simulate_backward_euler solve nl mna simconf = Except.ok history ∧
      (history.length : Int) = simconf.steps + 1 ∧ ∀ x ∈ history, x = 0 := by
  obtain ⟨mna2, hm2, _, _, hB⟩ := defineMNA_closed netlist nl h0 hwf hset
  rw [hmna] at hm2
  injection hm2 with hm2
  subst hm2
  have hb : mna.b = 0 := by rw [hB]; exact sumB_no_source _ _ _ hno
  refine ⟨hb, _, simulate_ok solve netlist nl h0 hset mna simconf hsteps, ?_, ?_⟩
  · rw [(eulerLoop_spec solve (mna.G + divScalar mna.C simconf.dt) mna simconf.dt
      simconf.steps.toNat 0 [0] rfl).1]
    simp only [List.length_singleton]
    omega
  · exact eulerLoop_rest solve hsolve _ mna simconf.dt hb hinv simconf.steps.toNat [0]
      (by simp)

/-- C20 at the grounded resistor, two steps of 1 ms, with Cramer's rule as the solver. -/
theorem no_source_stays_at_rest_witness :
    (SolvesExactly cramerSolve ∧ (0 : Int) ≤ groundedCircuit.max_nodes ∧
      TerminalsInRange groundedCircuit ∧
      (∀ c ∈ groundedCircuit.components, c.type ≠ CompType.VoltageSource) ∧
      setNodeToIndex groundedCircuit = Except.ok groundedNetlist ∧
      defineMNA groundedNetlist = Except.ok (⟨!![1 / 1000], 0, 0⟩ : MNA 1) ∧
      0 < sampleConf.dt ∧ 0 ≤ sampleConf.steps ∧
      IsUnit ((⟨!![1 / 1000], 0, 0⟩ : MNA 1).G
        + divScalar (⟨!![1 / 1000], 0, 0⟩ : MNA 1).C sampleConf.dt).det) ∧
    (⟨!![1 / 1000], 0, 0⟩ : MNA 1).b = 0 ∧
    ∃ history,
      simulate_backward_euler cramerSolve groundedNetlist ⟨!![1 / 1000], 0, 0⟩ sampleConf
        = Except.ok history ∧
      (history.length : Int) = sampleConf.steps + 1 ∧ ∀ x ∈ history, x = 0 :=
  have hwf : TerminalsInRange groundedCircuit := by
    intro c hc
    simp only [groundedCircuit, circuitOf, List.mem_singleton] at hc
    subst hc
    decide
  have hno : ∀ c ∈ groundedCircuit.components, c.type ≠ CompType.VoltageSource := by
    intro c hc
    simp only [groundedCircuit, circuitOf, List.mem_singleton] at hc
    subst hc
    decide
  have hdt : 0 < sampleConf.dt := by norm_num [sampleConf]
  have hinv : IsUnit ((⟨!![1 / 1000], 0, 0⟩ : MNA 1).G
      + divScalar (⟨!![1 / 1000], 0, 0⟩ : MNA 1).C sampleConf.dt).det := by
    rw [Matrix.det_fin_one]
    simp [divScalar]
  ⟨⟨cramerSolve_exact, by decide, hwf, hno, rfl, grounded_defineMNA, hdt, by decide, hinv⟩,
    no_source_stays_at_rest cramerSolve cramerSolve_exact groundedCircuit groundedNetlist
      (by decide) hwf hno rfl ⟨!![1 / 1000], 0, 0⟩ grounded_defineMNA sampleConf hdt
      (by decide) hinv⟩

end Circuitx
